import Mathlib

/-!
Verification development for the Nyasnake engine, pathfinder and decision
engine.  The definitions below are a shallow embedding of the Python sources
(`models.py`, `engine.py`, `pathfinding.py`, `ai.py`): pure functions become
Lean functions, the per-tick loops become folds or structural recursion, the
Python `dict`s become functions updated with `Function.update`, and the
`frozenset` of food positions becomes a `Finset`.  The pseudo-random
generator is abstracted as an explicit `shuffle : List Position → List
Position` argument (Python's `rng.shuffle` permutes a list in place); theorems
that depend on it assume it permutes its input.
-/

/- ### Geometry (`models.py`) -/

/-- `Position` from `models.py`: an immutable 2D grid position. -/
structure Position where
  x : Int
  y : Int
deriving DecidableEq

instance : Inhabited Position := ⟨⟨0, 0⟩⟩

/-- `Direction` from `models.py`: the four cardinal directions. -/
inductive Direction where
  | up
  | down
  | left
  | right
deriving DecidableEq

/-- Unit vector offset of a direction (`Direction.delta`). -/
def Direction.delta : Direction → Int × Int
  | .up => (0, -1)
  | .down => (0, 1)
  | .left => (-1, 0)
  | .right => (1, 0)

/-- `Direction.opposite` from `models.py`. -/
def Direction.opposite : Direction → Direction
  | .up => .down
  | .down => .up
  | .left => .right
  | .right => .left

/-- The four directions in the enumeration order of the Python `Direction`
enum (`for direction in Direction` iterates UP, DOWN, LEFT, RIGHT). -/
def Direction.all : List Direction := [.up, .down, .left, .right]

/-- `Position.__add__`: adding a direction's delta to a position. -/
def Position.add (p : Position) (d : Direction) : Position :=
  ⟨p.x + d.delta.1, p.y + d.delta.2⟩

/-- `Position.distance_to`: Manhattan distance. -/
def Position.distance_to (p q : Position) : Nat :=
  (p.x - q.x).natAbs + (p.y - q.y).natAbs

/- ### Engine data model (`engine.py`) -/

/-- `SnakeState` from `engine.py`.  The body list is head first, tail last. -/
structure SnakeState where
  id : Nat
  body : List Position
  direction : Direction
  alive : Bool := true
  score : Nat := 0
  kills : Nat := 0
deriving DecidableEq

/-- `SnakeState.head`: `body[0]`.  Python raises on an empty body; the
embedding returns the default position, which no theorem relies on. -/
def SnakeState.head (s : SnakeState) : Position := s.body.headI

/-- `SnakeState.length`: `len(body)`. -/
def SnakeState.length (s : SnakeState) : Nat := s.body.length

/-- `GameState` from `engine.py`.  The occupancy `dict` is embedded as a
function from positions to optional snake ids (`None` for absent keys). -/
structure GameState where
  snakes : List SnakeState
  food : Finset Position
  occupied : Position → Option Nat
  width : Int
  height : Int
  frame : Nat := 0

/-- `_is_within_bounds` from `engine.py`: strict interior of the grid. -/
def is_within_bounds (pos : Position) (width height : Int) : Bool :=
  0 < pos.x && pos.x < width - 1 && 0 < pos.y && pos.y < height - 1

/-- `GameState.is_within_bounds`: same interior test as `_is_within_bounds`. -/
def GameState.is_within_bounds (st : GameState) (pos : Position) : Bool :=
  0 < pos.x && pos.x < st.width - 1 && 0 < pos.y && pos.y < st.height - 1

/-- `GameState.is_occupied`. -/
def GameState.is_occupied (st : GameState) (pos : Position) : Bool :=
  (st.occupied pos).isSome

/-- `GameState.find_snake`: first snake with the given id, if any. -/
def GameState.find_snake (st : GameState) (snake_id : Nat) : Option SnakeState :=
  st.snakes.find? (fun s => s.id == snake_id)

/-- `SnakeSpawn` from `engine.py`. -/
structure SnakeSpawn where
  id : Nat
  body : List Position
  direction : Direction

/-- `GameEvent` from `engine.py`.  The engine never fills the free-form
payload, so the embedding omits it. -/
structure GameEvent where
  type : String
  snake_id : Option Nat := none
  position : Option Position := none
deriving DecidableEq

/-- `TickResult` from `engine.py`. -/
structure TickResult where
  state : GameState
  events : List GameEvent

/-- Loop body of `_build_occupancy`: a dead snake is skipped, an alive one
writes every body segment to the map (later writes shadow earlier ones,
exactly like the Python `dict` assignments). -/
def occupancy_step (acc : Position → Option Nat) (snake : SnakeState) :
    Position → Option Nat :=
  if snake.alive then
    snake.body.foldl (fun a seg => Function.update a seg (some snake.id)) acc
  else acc

/-- `_build_occupancy` from `engine.py`. -/
def build_occupancy (snakes : List SnakeState) : Position → Option Nat :=
  snakes.foldl occupancy_step (fun _ => none)

/- ### Movement phase of `advance_state` -/

/-- The effective direction of an alive snake in `advance_state`: a missing
decision keeps the current direction, and a decision equal to the exact
opposite of the current direction is replaced by the current direction. -/
def effective_direction (decisions : Nat → Option Direction)
    (snake : SnakeState) : Direction :=
  let d0 := (decisions snake.id).getD snake.direction
  if d0 = snake.direction.opposite then snake.direction else d0

/-- The loop body of the movement phase of `advance_state` for one alive
snake: resolve the effective direction, prepend the new head, keep the tail
on food (score +10, food removed, event emitted) and drop it otherwise. -/
def move_snake (decisions : Nat → Option Direction) (food : Finset Position)
    (snake : SnakeState) : SnakeState × Finset Position × List GameEvent :=
  let direction := effective_direction decisions snake
  let new_head := snake.head.add direction
  if new_head ∈ food then
    (⟨snake.id, new_head :: snake.body, direction, true, snake.score + 10, snake.kills⟩,
     food.erase new_head,
     [⟨"food_consumed", some snake.id, some new_head⟩])
  else
    (⟨snake.id, new_head :: snake.body.dropLast, direction, true, snake.score, snake.kills⟩,
     food, [])

/-- The movement phase of `advance_state`: alive snakes are moved in list
order against the sequentially updated food set; dead snakes are carried
through unchanged. -/
def move_snakes (decisions : Nat → Option Direction) (food : Finset Position) :
    List SnakeState → List SnakeState × Finset Position × List GameEvent
  | [] => ([], food, [])
  | snake :: rest =>
    if snake.alive then
      let r := move_snake decisions food snake
      let rest_r := move_snakes decisions r.2.1 rest
      (r.1 :: rest_r.1, rest_r.2.1, r.2.2 ++ rest_r.2.2)
    else
      let rest_r := move_snakes decisions food rest
      (snake :: rest_r.1, rest_r.2.1, rest_r.2.2)

/- ### Collision phases of `advance_state` -/

/-- The wall/self collision phase: a moved snake dies if its new head is out
of the interior or lies on one of its own non-head segments (`body[1:]`).
Dead carried snakes just have their flag (re)set to `False`. -/
def wall_self_phase (width height : Int) (moved : List SnakeState)
    (flags : Nat → Bool) (events : List GameEvent) :
    (Nat → Bool) × List GameEvent :=
  moved.foldl
    (fun acc snake =>
      if snake.alive = false then
        (Function.update acc.1 snake.id false, acc.2)
      else if is_within_bounds snake.head width height = false then
        (Function.update acc.1 snake.id false,
         acc.2 ++ [⟨"snake_died", some snake.id, some snake.head⟩])
      else if snake.head ∈ snake.body.tail then
        (Function.update acc.1 snake.id false,
         acc.2 ++ [⟨"snake_died", some snake.id, some snake.head⟩])
      else acc)
    (flags, events)

/-- Append an id to the group of its head position, creating the group at the
end on first occurrence — the behaviour of
`head_positions.setdefault(head, []).append(id)` on an insertion-ordered
Python `dict`. -/
def insert_head (pos : Position) (i : Nat) :
    List (Position × List Nat) → List (Position × List Nat)
  | [] => [(pos, [i])]
  | (p, ids) :: rest =>
    if p = pos then (p, ids ++ [i]) :: rest
    else (p, ids) :: insert_head pos i rest

/-- Grouping of the still-alive moved snakes by identical new head position,
in `dict` insertion order. -/
def head_groups (moved : List SnakeState) (flags : Nat → Bool) :
    List (Position × List Nat) :=
  moved.foldl
    (fun groups snake =>
      if flags snake.id then insert_head snake.head snake.id groups else groups)
    []

/-- `_award_kill` from `engine.py`: increment the kill counter of the first
snake in the list with the given id. -/
def award_kill : List SnakeState → Nat → Nat → List SnakeState
  | [], _, _ => []
  | snake :: rest, killer_id, kills =>
    if snake.id = killer_id then
      { snake with kills := snake.kills + kills } :: rest
    else
      snake :: award_kill rest killer_id kills

/-- One step of the kill loop of the single-survivor case of the head-to-head
phase: a contender other than the winner whose flag is still alive is marked
dead, counted, and a `snake_died` event is appended. -/
def kill_step (winner : Nat) (pos : Position)
    (acc : (Nat → Bool) × Nat × List GameEvent) (i : Nat) :
    (Nat → Bool) × Nat × List GameEvent :=
  if i = winner then acc
  else if acc.1 i then
    (Function.update acc.1 i false, acc.2.1 + 1,
     acc.2.2 ++ [⟨"snake_died", some i, some pos⟩])
  else acc

/-- One step of the all-die loop of the tied case of the head-to-head phase. -/
def kill_all_step (pos : Position) (acc : (Nat → Bool) × List GameEvent)
    (i : Nat) : (Nat → Bool) × List GameEvent :=
  if acc.1 i then
    (Function.update acc.1 i false,
     acc.2 ++ [⟨"snake_died", some i, some pos⟩])
  else acc

/-- Resolution of one head-to-head group, as in `advance_state`: groups of
size ≤ 1 are skipped; otherwise the contenders of maximal recorded length
survive if unique (all others die and the winner is credited), and everybody
dies with no credit when the maximum is shared. -/
def process_group (lengths : Nat → Nat)
    (acc : List SnakeState × (Nat → Bool) × List GameEvent)
    (g : Position × List Nat) :
    List SnakeState × (Nat → Bool) × List GameEvent :=
  if g.2.length ≤ 1 then acc
  else
    let best := (g.2.map lengths).foldl max 0
    let survivors := g.2.filter (fun i => lengths i = best)
    if survivors.length = 1 then
      let winner := survivors.headI
      let r := g.2.foldl (kill_step winner g.1) (acc.2.1, 0, acc.2.2)
      if 0 < r.2.1 then (award_kill acc.1 winner r.2.1, r.1, r.2.2)
      else (acc.1, r.1, r.2.2)
    else
      let r := g.2.foldl (kill_all_step g.1) (acc.2.1, acc.2.2)
      (acc.1, r.1, r.2)

/-- `body_positions` of `advance_state`: map every non-head segment of every
still-alive snake to its owner, first writer wins (`dict.setdefault`). -/
def body_positions (moved : List SnakeState) (flags : Nat → Bool) :
    Position → Option Nat :=
  moved.foldl
    (fun bp snake =>
      if flags snake.id then
        snake.body.tail.foldl
          (fun (b : Position → Option Nat) seg =>
            if (b seg).isSome then b else Function.update b seg (some snake.id))
          bp
      else bp)
    (fun _ => none)

/-- One step of the head-into-body phase: an alive snake whose head lies on a
segment owned by a different snake dies and the owner is credited one kill.
Python iterates the list it is mutating; the mutation only touches kill
counters, which this loop never reads, so folding over the snapshot is
equivalent. -/
def body_collision_step (bp : Position → Option Nat)
    (acc : List SnakeState × (Nat → Bool) × List GameEvent)
    (snake : SnakeState) : List SnakeState × (Nat → Bool) × List GameEvent :=
  if acc.2.1 snake.id then
    match bp snake.head with
    | none => acc
    | some occupant =>
      if occupant = snake.id then acc
      else
        (award_kill acc.1 occupant 1,
         Function.update acc.2.1 snake.id false,
         acc.2.2 ++ [⟨"snake_died", some snake.id, some snake.head⟩])
  else acc

/-- The finalize phase: snakes whose flag was cleared (or that were already
dead) are rebuilt with `alive := false`, keeping body, score and kills. -/
def finalize (flags : Nat → Bool) (moved : List SnakeState) : List SnakeState :=
  moved.map (fun snake =>
    if flags snake.id && snake.alive then snake else { snake with alive := false })

/- ### Food spawning -/

/-- The interior cell enumeration of `_spawn_food`:
`Position(x, y) for x in range(1, width-1) for y in range(1, height-1)`. -/
def interior_cells (width height : Int) : List Position :=
  (List.range (width - 2).toNat).flatMap
    (fun i : Nat => (List.range (height - 2).toNat).map
      (fun j : Nat => ⟨(i : Int) + 1, (j : Int) + 1⟩))

/-- `_spawn_food` from `engine.py`: free interior cells (no body segment of
the given snakes, no existing food) are shuffled and popped from the end up
to `count` times; the result is the union with the existing food. -/
def spawn_food (width height : Int) (snakes : List SnakeState)
    (existing_food : Finset Position) (count : Nat)
    (shuffle : List Position → List Position) : Finset Position :=
  let available := (interior_cells width height).filter
    (fun p => !snakes.any (fun s => decide (p ∈ s.body)) && decide (p ∉ existing_food))
  let picked := (shuffle available).reverse.take count
  existing_food ∪ picked.toFinset

/- ### The two state producers -/

/-- `create_initial_state` from `engine.py`. -/
def create_initial_state (width height : Int) (spawns : List SnakeSpawn)
    (initial_food : Nat) (shuffle : List Position → List Position) : GameState :=
  let snakes := spawns.map (fun sp =>
    { id := sp.id, body := sp.body, direction := sp.direction : SnakeState })
  let food := spawn_food width height snakes ∅ initial_food shuffle
  { snakes := snakes, food := food, occupied := build_occupancy snakes,
    width := width, height := height, frame := 0 }

/-- The part of `advance_state` after the movement phase: wall/self
collisions, head-to-head collisions, head-into-body collisions, finalize,
food respawn, occupancy rebuild.  `mv` is the movement phase's output
(moved snakes, remaining food, events so far). -/
def advance_after_movement (width height : Int) (frame : Nat)
    (mv : List SnakeState × Finset Position × List GameEvent)
    (shuffle : List Position → List Position) (desired_food : Nat) : TickResult :=
  let moved := mv.1
  let food := mv.2.1
  let flags0 := moved.foldl (fun f s => Function.update f s.id s.alive) (fun _ => false)
  let lengths := moved.foldl (fun f s => Function.update f s.id s.length) (fun _ => 0)
  let ws := wall_self_phase width height moved flags0 mv.2.2
  let groups := head_groups moved ws.1
  let hh := groups.foldl (process_group lengths) (moved, ws.1, ws.2)
  let bp := body_positions hh.1 hh.2.1
  let bc := hh.1.foldl (body_collision_step bp) hh
  let next_snakes := finalize bc.2.1 bc.1
  let alive_snakes := next_snakes.filter (fun s => s.alive)
  let food2 :=
    if food.card < desired_food then
      spawn_food width height alive_snakes food (desired_food - food.card) shuffle
    else food
  { state :=
      { snakes := next_snakes, food := food2,
        occupied := build_occupancy alive_snakes,
        width := width, height := height, frame := frame + 1 },
    events := bc.2.2 }

/-- `advance_state` from `engine.py`: the movement phase followed by the
collision, finalize and respawn phases. -/
def advance_state (state : GameState) (decisions : Nat → Option Direction)
    (shuffle : List Position → List Position) (desired_food : Nat) : TickResult :=
  advance_after_movement state.width state.height state.frame
    (move_snakes decisions state.food state.snakes) shuffle desired_food

/- ### Movement-phase lemmas -/

theorem direction_ne_opposite (d : Direction) : d ≠ d.opposite := by
  cases d <;> simp [Direction.opposite]

theorem move_snakes_fst_length (decisions : Nat → Option Direction) :
    ∀ (snakes : List SnakeState) (food : Finset Position),
      (move_snakes decisions food snakes).1.length = snakes.length := by
  intro snakes
  induction snakes with
  | nil => intro food; simp [move_snakes]
  | cons s rest ih =>
    intro food
    by_cases h : s.alive <;> simp [move_snakes, h, ih]

theorem move_snakes_append (decisions : Nat → Option Direction)
    (pre rest : List SnakeState) :
    ∀ food : Finset Position,
      move_snakes decisions food (pre ++ rest) =
        ((move_snakes decisions food pre).1 ++
            (move_snakes decisions (move_snakes decisions food pre).2.1 rest).1,
          (move_snakes decisions (move_snakes decisions food pre).2.1 rest).2.1,
          (move_snakes decisions food pre).2.2 ++
            (move_snakes decisions (move_snakes decisions food pre).2.1 rest).2.2) := by
  induction pre with
  | nil => intro food; simp [move_snakes]
  | cons s pre ih =>
    intro food
    by_cases h : s.alive <;> simp [move_snakes, h, ih]

/-- **C2.** In the movement phase of `advance_state`, every alive snake whose
new head (old head plus effective direction) coincides with a position of the
food remaining when it moves grows by exactly one body segment, gains exactly
10 score, has that food item removed, and causes a `food_consumed` event;
every alive snake whose new head is not on a food position keeps its length
and score unchanged. -/
theorem C2_movement_food (decisions : Nat → Option Direction)
    (food : Finset Position) (pre post : List SnakeState) (snake : SnakeState)
    (halive : snake.alive = true) (hbody : snake.body ≠ [])
    (F : Finset Position) (hF : F = (move_snakes decisions food pre).2.1)
    (nh : Position) (hnh : nh = snake.head.add (effective_direction decisions snake)) :
    (move_snakes decisions food (pre ++ snake :: post)).1[pre.length]? =
        some (move_snake decisions F snake).1 ∧
    (move_snake decisions F snake).1.head = nh ∧
    (move_snakes decisions food (pre ++ snake :: post)).2.2 =
        (move_snakes decisions food pre).2.2 ++ (move_snake decisions F snake).2.2 ++
          (move_snakes decisions (move_snake decisions F snake).2.1 post).2.2 ∧
    (nh ∈ F →
        (move_snake decisions F snake).1.length = snake.length + 1 ∧
        (move_snake decisions F snake).1.score = snake.score + 10 ∧
        (move_snake decisions F snake).2.1 = F.erase nh ∧
        (move_snake decisions F snake).2.2 =
          [⟨"food_consumed", some snake.id, some nh⟩]) ∧
    (nh ∉ F →
        (move_snake decisions F snake).1.length = snake.length ∧
        (move_snake decisions F snake).1.score = snake.score ∧
        (move_snake decisions F snake).2.1 = F ∧
        (move_snake decisions F snake).2.2 = []) := by
  subst hF hnh
  refine ⟨?_, ?_, ?_, ?_, ?_⟩
  · rw [move_snakes_append]
    rw [List.getElem?_append_right (by rw [move_snakes_fst_length])]
    rw [move_snakes_fst_length]
    simp [move_snakes, halive]
  · by_cases h : snake.head.add (effective_direction decisions snake) ∈
        (move_snakes decisions food pre).2.1 <;>
      · simp only [SnakeState.head] at h
        simp [move_snake, h, SnakeState.head]
  · rw [move_snakes_append]
    simp [move_snakes, halive, List.append_assoc]
  · intro h
    have hlen : snake.body.length ≠ 0 := by
      simpa [List.length_eq_zero] using hbody
    simp [move_snake, h, SnakeState.length]
  · intro h
    have hlen : snake.body.length ≠ 0 := by
      simpa [List.length_eq_zero] using hbody
    simp [move_snake, h, SnakeState.length, List.length_dropLast]
    omega

/-- Concrete witness state for the movement-phase theorems: one snake of
length 2 heading right, one food item directly ahead of it. -/
def witness_state_food : GameState :=
  { snakes := [{ id := 0, body := [⟨2, 2⟩, ⟨1, 2⟩], direction := .right }],
    food := {⟨3, 2⟩},
    occupied := build_occupancy [{ id := 0, body := [⟨2, 2⟩, ⟨1, 2⟩], direction := .right }],
    width := 7, height := 7 }

theorem C2_movement_food_witness :
    (⟨3, 2⟩ : Position) ∈ witness_state_food.food ∧
    (move_snakes (fun _ => none) witness_state_food.food
        ([] ++ [{ id := 0, body := [⟨2, 2⟩, ⟨1, 2⟩], direction := .right }] )).1[(0 : Nat)]? =
      some (move_snake (fun _ => none) witness_state_food.food
        { id := 0, body := [⟨2, 2⟩, ⟨1, 2⟩], direction := .right }).1 ∧
    (move_snake (fun _ => none) witness_state_food.food
        { id := 0, body := [⟨2, 2⟩, ⟨1, 2⟩], direction := .right }).1.length = 2 + 1 := by
  have h := C2_movement_food (fun _ => none) witness_state_food.food []
    [] { id := 0, body := [⟨2, 2⟩, ⟨1, 2⟩], direction := .right }
    (by decide) (by decide)
    witness_state_food.food (by simp [move_snakes])
    ⟨3, 2⟩ (by decide)
  refine ⟨by decide, h.1, ?_⟩
  have h4 := h.2.2.2.1 (by decide)
  simpa using h4.1

/- ### C5: an opposite decision is treated as missing -/

theorem move_snakes_opposite_congr (i : Nat) (dir : Direction)
    (decisions : Nat → Option Direction) :
    ∀ (snakes : List SnakeState) (food : Finset Position),
      (∀ s ∈ snakes, s.id = i → dir = s.direction.opposite) →
      move_snakes (Function.update decisions i (some dir)) food snakes =
        move_snakes (Function.update decisions i none) food snakes := by
  intro snakes
  induction snakes with
  | nil => intro food _; simp [move_snakes]
  | cons s rest ih =>
    intro food h
    have hs : effective_direction (Function.update decisions i (some dir)) s =
        effective_direction (Function.update decisions i none) s := by
      by_cases hid : s.id = i
      · have hdir : dir = s.direction.opposite := h s (by simp) hid
        simp [effective_direction, hid, Function.update, hdir,
          (direction_ne_opposite s.direction).symm]
      · simp [effective_direction, Function.update, hid]
    have hrest : ∀ s ∈ rest, s.id = i → dir = s.direction.opposite :=
      fun s hs => h s (by simp [hs])
    by_cases ha : s.alive
    · simp only [move_snakes, ha, if_true, move_snake, hs]
      rw [ih _ hrest]
    · simp [move_snakes, ha]
      rw [ih _ hrest]
      exact ⟨rfl, rfl⟩

/-- **C5.** For every alive snake, a decision equal to the exact opposite of
its current direction is treated as missing: `advance_state` produces exactly
the same result as if no decision had been supplied for the snake's id.  The
hypothesis fixes `dir` to be the opposite of the current direction of every
snake carrying the id. -/
theorem C5_opposite_decision_ignored (state : GameState)
    (decisions : Nat → Option Direction) (shuffle : List Position → List Position)
    (desired_food : Nat) (i : Nat) (dir : Direction)
    (h : ∀ s ∈ state.snakes, s.id = i → dir = s.direction.opposite) :
    advance_state state (Function.update decisions i (some dir)) shuffle desired_food =
      advance_state state (Function.update decisions i none) shuffle desired_food := by
  unfold advance_state
  rw [move_snakes_opposite_congr i dir decisions state.snakes state.food h]

theorem C5_opposite_decision_ignored_witness :
    (∀ s ∈ witness_state_food.snakes, s.id = 0 → Direction.left = s.direction.opposite) ∧
    advance_state witness_state_food
        (Function.update (fun _ => none) 0 (some Direction.left)) id 1 =
      advance_state witness_state_food
        (Function.update (fun _ => none) 0 none) id 1 :=
  ⟨by decide,
   C5_opposite_decision_ignored witness_state_food (fun _ => none) id 1 0
     Direction.left (by decide)⟩

/- ### C1: head-to-head resolution -/

/-- Kill counter of the first snake in the list with the given id (0 when
absent) — the field `_award_kill` increments. -/
def kills_of (snakes : List SnakeState) (i : Nat) : Nat :=
  match snakes.find? (fun s => s.id == i) with
  | some s => s.kills
  | none => 0

theorem kills_of_award_kill :
    ∀ (snakes : List SnakeState) (w k : Nat), (∃ s ∈ snakes, s.id = w) →
      kills_of (award_kill snakes w k) w = kills_of snakes w + k := by
  intro snakes
  induction snakes with
  | nil => rintro w k ⟨s, hs, _⟩; simp at hs
  | cons s rest ih =>
    intro w k h
    by_cases hsw : s.id = w
    · rw [award_kill, if_pos hsw]
      rw [kills_of, kills_of, List.find?_cons_of_pos _ (by simpa using hsw),
        List.find?_cons_of_pos _ (by simpa using hsw)]
    · obtain ⟨t, ht, htw⟩ := h
      have ht' : t ∈ rest := by
        rcases List.mem_cons.mp ht with h1 | h1
        · exact absurd (h1 ▸ htw) hsw
        · exact h1
      rw [award_kill, if_neg hsw]
      rw [kills_of, kills_of, List.find?_cons_of_neg _ (by simpa using hsw),
        List.find?_cons_of_neg _ (by simpa using hsw)]
      exact ih w k ⟨t, ht', htw⟩

theorem kill_step_skip (winner : Nat) (pos : Position)
    (acc : (Nat → Bool) × Nat × List GameEvent) (i : Nat) (h : i = winner) :
    kill_step winner pos acc i = acc := by
  simp [kill_step, h]

theorem kill_step_dead (winner : Nat) (pos : Position)
    (acc : (Nat → Bool) × Nat × List GameEvent) (i : Nat)
    (h1 : i ≠ winner) (h2 : acc.1 i = false) :
    kill_step winner pos acc i = acc := by
  simp [kill_step, h1, h2]

theorem kill_step_kill (winner : Nat) (pos : Position)
    (acc : (Nat → Bool) × Nat × List GameEvent) (i : Nat)
    (h1 : i ≠ winner) (h2 : acc.1 i = true) :
    kill_step winner pos acc i =
      (Function.update acc.1 i false, acc.2.1 + 1,
        acc.2.2 ++ [⟨"snake_died", some i, some pos⟩]) := by
  simp [kill_step, h1, h2]

theorem kill_fold_spec (winner : Nat) (pos : Position) :
    ∀ (l : List Nat) (flags : Nat → Bool) (cnt : Nat) (events : List GameEvent),
      l.Nodup → (∀ i ∈ l, flags i = true) →
      (∀ j, j ∉ l.filter (fun i => decide (i ≠ winner)) →
        (l.foldl (kill_step winner pos) (flags, cnt, events)).1 j = flags j) ∧
      (∀ i ∈ l, i ≠ winner →
        (l.foldl (kill_step winner pos) (flags, cnt, events)).1 i = false) ∧
      (l.foldl (kill_step winner pos) (flags, cnt, events)).2.1 =
        cnt + (l.filter (fun i => decide (i ≠ winner))).length ∧
      (∀ e ∈ events, e ∈ (l.foldl (kill_step winner pos) (flags, cnt, events)).2.2) ∧
      (∀ i ∈ l, i ≠ winner →
        (⟨"snake_died", some i, some pos⟩ : GameEvent) ∈
          (l.foldl (kill_step winner pos) (flags, cnt, events)).2.2) := by
  intro l
  induction l with
  | nil => intro flags cnt events _ _; simp
  | cons i rest ih =>
    intro flags cnt events hnd hal
    have hnd' : rest.Nodup := hnd.of_cons
    have hi_not : i ∉ rest := by
      intro hmem
      exact (List.nodup_cons.mp hnd).1 hmem
    by_cases hiw : i = winner
    · rw [List.foldl_cons, kill_step_skip winner pos _ i hiw]
      have hal' : ∀ j ∈ rest, flags j = true := fun j hj => hal j (by simp [hj])
      obtain ⟨c1, c2, c3, c4, c5⟩ := ih flags cnt events hnd' hal'
      have hfilter : (i :: rest).filter (fun j => decide (j ≠ winner)) =
          rest.filter (fun j => decide (j ≠ winner)) := by
        simp [List.filter_cons, hiw]
      refine ⟨?_, ?_, ?_, c4, ?_⟩
      · intro j hj; exact c1 j (by rwa [hfilter] at hj)
      · intro j hj hjw
        rcases List.mem_cons.mp hj with h1 | h1
        · exact absurd (h1.trans hiw) hjw
        · exact c2 j h1 hjw
      · rw [c3, hfilter]
      · intro j hj hjw
        rcases List.mem_cons.mp hj with h1 | h1
        · exact absurd (h1.trans hiw) hjw
        · exact c5 j h1 hjw
    · have hfi : flags i = true := hal i (by simp)
      rw [List.foldl_cons, kill_step_kill winner pos _ i hiw hfi]
      have hal' : ∀ j ∈ rest, (Function.update flags i false) j = true := by
        intro j hj
        have hji : j ≠ i := fun h => hi_not (h ▸ hj)
        rw [Function.update_noteq hji]
        exact hal j (by simp [hj])
      obtain ⟨c1, c2, c3, c4, c5⟩ :=
        ih (Function.update flags i false) (cnt + 1)
          (events ++ [⟨"snake_died", some i, some pos⟩]) hnd' hal'
      have hfilter : (i :: rest).filter (fun j => decide (j ≠ winner)) =
          i :: rest.filter (fun j => decide (j ≠ winner)) := by
        simp [List.filter_cons, hiw]
      refine ⟨?_, ?_, ?_, ?_, ?_⟩
      · intro j hj
        rw [hfilter] at hj
        have hji : j ≠ i := fun h => hj (h ▸ List.mem_cons_self _ _)
        have hj' : j ∉ rest.filter (fun j => decide (j ≠ winner)) :=
          fun h => hj (List.mem_cons_of_mem _ h)
        rw [c1 j hj', Function.update_noteq hji]
      · intro j hj hjw
        rcases List.mem_cons.mp hj with h1 | h1
        · subst h1
          have hj' : j ∉ rest.filter (fun k => decide (k ≠ winner)) :=
            fun h => hi_not (List.mem_of_mem_filter h)
          rw [c1 j hj', Function.update_same]
        · exact c2 j h1 hjw
      · rw [c3, hfilter]
        simp [Nat.add_comm, Nat.add_assoc, Nat.add_left_comm]
      · intro e he
        exact c4 e (by simp [he])
      · intro j hj hjw
        rcases List.mem_cons.mp hj with h1 | h1
        · subst h1
          exact c4 _ (by simp)
        · exact c5 j h1 hjw

theorem kill_all_fold_spec (pos : Position) :
    ∀ (l : List Nat) (flags : Nat → Bool) (events : List GameEvent),
      l.Nodup → (∀ i ∈ l, flags i = true) →
      (∀ i ∈ l, (l.foldl (kill_all_step pos) (flags, events)).1 i = false) ∧
      (∀ e ∈ events, e ∈ (l.foldl (kill_all_step pos) (flags, events)).2) ∧
      (∀ i ∈ l, (⟨"snake_died", some i, some pos⟩ : GameEvent) ∈
        (l.foldl (kill_all_step pos) (flags, events)).2) := by
  intro l
  induction l with
  | nil => intro flags events _ _; simp
  | cons i rest ih =>
    intro flags events hnd hal
    have hnd' : rest.Nodup := hnd.of_cons
    have hi_not : i ∉ rest := (List.nodup_cons.mp hnd).1
    have hfi : flags i = true := hal i (by simp)
    have hstep : kill_all_step pos (flags, events) i =
        (Function.update flags i false,
          events ++ [⟨"snake_died", some i, some pos⟩]) := by
      simp [kill_all_step, hfi]
    rw [List.foldl_cons, hstep]
    have hal' : ∀ j ∈ rest, (Function.update flags i false) j = true := by
      intro j hj
      have hji : j ≠ i := fun h => hi_not (h ▸ hj)
      rw [Function.update_noteq hji]
      exact hal j (by simp [hj])
    obtain ⟨c1, c2, c3⟩ :=
      ih (Function.update flags i false)
        (events ++ [⟨"snake_died", some i, some pos⟩]) hnd' hal'
    have hfalse : ∀ (l2 : List Nat) (f : Nat → Bool) (ev : List GameEvent) (j : Nat),
        f j = false → (l2.foldl (kill_all_step pos) (f, ev)).1 j = false := by
      intro l2
      induction l2 with
      | nil => intro f ev j hj; exact hj
      | cons a l2r ih2 =>
        intro f ev j hj
        rw [List.foldl_cons]
        by_cases hfa : f a
        · rw [show kill_all_step pos (f, ev) a =
              (Function.update f a false,
                ev ++ [⟨"snake_died", some a, some pos⟩]) from by
            simp [kill_all_step, hfa]]
          apply ih2
          by_cases hja : j = a
          · subst hja
            exact Function.update_same _ _ _
          · rwa [Function.update_noteq hja]
        · rw [show kill_all_step pos (f, ev) a = (f, ev) from by
            simp [kill_all_step, hfa]]
          exact ih2 f ev j hj
    refine ⟨?_, ?_, ?_⟩
    · intro j hj
      rcases List.mem_cons.mp hj with h1 | h1
      · subst h1
        exact hfalse rest _ _ j (Function.update_same _ _ _)
      · exact c1 j h1
    · intro e he
      exact c2 e (by simp [he])
    · intro j hj
      rcases List.mem_cons.mp hj with h1 | h1
      · subst h1
        exact c2 _ (by simp)
      · exact c3 j h1

theorem filter_ne_length_of_nodup (w : Nat) :
    ∀ l : List Nat, l.Nodup → w ∈ l →
      (l.filter (fun i => decide (i ≠ w))).length = l.length - 1 := by
  intro l
  induction l with
  | nil => intro _ h; simp at h
  | cons a rest ih =>
    intro hnd hw
    have hnd' : rest.Nodup := hnd.of_cons
    by_cases haw : a = w
    · subst haw
      have ha_not : a ∉ rest := (List.nodup_cons.mp hnd).1
      have : rest.filter (fun i => decide (i ≠ a)) = rest :=
        List.filter_eq_self.mpr (fun b hb => by
          simp only [decide_eq_true_eq]
          exact fun h => ha_not (h ▸ hb))
      simp [List.filter_cons, this]
      intro b hb hba
      exact ha_not (hba ▸ hb)
    · have hw' : w ∈ rest := by
        rcases List.mem_cons.mp hw with h1 | h1
        · exact absurd h1.symm haw
        · exact h1
      have hlen : 1 ≤ rest.length := List.length_pos.mpr (List.ne_nil_of_mem hw')
      have := ih hnd' hw'
      simp only [List.filter_cons, haw, decide_eq_true_eq]
      simp only [if_pos (by exact haw : a ≠ w)]
      simp only [List.length_cons, this]
      omega

theorem process_group_single (lengths : Nat → Nat) (moved : List SnakeState)
    (flags : Nat → Bool) (events : List GameEvent) (pos : Position)
    (contenders : List Nat) (w : Nat) (h2 : 2 ≤ contenders.length)
    (hw : contenders.filter
        (fun i => decide (lengths i = (contenders.map lengths).foldl max 0)) = [w]) :
    process_group lengths (moved, flags, events) (pos, contenders) =
      if 0 < (contenders.foldl (kill_step w pos) (flags, 0, events)).2.1 then
        (award_kill moved w (contenders.foldl (kill_step w pos) (flags, 0, events)).2.1,
          (contenders.foldl (kill_step w pos) (flags, 0, events)).1,
          (contenders.foldl (kill_step w pos) (flags, 0, events)).2.2)
      else
        (moved, (contenders.foldl (kill_step w pos) (flags, 0, events)).1,
          (contenders.foldl (kill_step w pos) (flags, 0, events)).2.2) := by
  have hne : ¬ contenders.length ≤ 1 := by omega
  simp only [process_group]
  rw [if_neg hne, hw]
  simp

theorem process_group_tie (lengths : Nat → Nat) (moved : List SnakeState)
    (flags : Nat → Bool) (events : List GameEvent) (pos : Position)
    (contenders : List Nat) (h2 : 2 ≤ contenders.length)
    (hs : (contenders.filter
        (fun i => decide (lengths i = (contenders.map lengths).foldl max 0))).length ≠ 1) :
    process_group lengths (moved, flags, events) (pos, contenders) =
      (moved, (contenders.foldl (kill_all_step pos) (flags, events)).1,
        (contenders.foldl (kill_all_step pos) (flags, events)).2) := by
  have hne : ¬ contenders.length ≤ 1 := by omega
  simp only [process_group]
  rw [if_neg hne, if_neg hs]

/-- **C1.** In `advance_state`, for every head-to-head group of two or more
still-alive snakes with identical new heads (with distinct ids): if exactly
one contender has the strictly greatest recorded body length (the filter of
maximal-length contenders is the singleton `[w]`), every other member of the
group is marked dead with a `snake_died` event, the winner stays alive, and
the winner's kill count increases by exactly the number of defeated group
members (group size minus one); if the maximum length is shared (the filter
has length ≥ 2), every contender dies with a `snake_died` event and no kill
is credited (the snake list is unchanged). -/
theorem C1_head_to_head_resolution (lengths : Nat → Nat) (moved : List SnakeState)
    (flags : Nat → Bool) (events : List GameEvent) (pos : Position)
    (contenders : List Nat) (h2 : 2 ≤ contenders.length)
    (hnd : contenders.Nodup) (hal : ∀ i ∈ contenders, flags i = true) :
    (∀ w, contenders.filter
        (fun i => decide (lengths i = (contenders.map lengths).foldl max 0)) = [w] →
      (process_group lengths (moved, flags, events) (pos, contenders)).2.1 w = true ∧
      (∀ i ∈ contenders, i ≠ w →
        (process_group lengths (moved, flags, events) (pos, contenders)).2.1 i = false ∧
        (⟨"snake_died", some i, some pos⟩ : GameEvent) ∈
          (process_group lengths (moved, flags, events) (pos, contenders)).2.2) ∧
      ((∃ s ∈ moved, s.id = w) →
        kills_of (process_group lengths (moved, flags, events) (pos, contenders)).1 w =
          kills_of moved w + (contenders.length - 1))) ∧
    (2 ≤ (contenders.filter
        (fun i => decide (lengths i = (contenders.map lengths).foldl max 0))).length →
      (process_group lengths (moved, flags, events) (pos, contenders)).1 = moved ∧
      (∀ i ∈ contenders,
        (process_group lengths (moved, flags, events) (pos, contenders)).2.1 i = false ∧
        (⟨"snake_died", some i, some pos⟩ : GameEvent) ∈
          (process_group lengths (moved, flags, events) (pos, contenders)).2.2)) := by
  constructor
  · intro w hw
    have hw_mem : w ∈ contenders := by
      have h1 : w ∈ contenders.filter
          (fun i => decide (lengths i = (contenders.map lengths).foldl max 0)) := by
        rw [hw]; exact List.mem_singleton_self w
      exact List.mem_of_mem_filter h1
    obtain ⟨c1, c2, c3, _, c5⟩ :=
      kill_fold_spec w pos contenders flags 0 events hnd hal
    have hcount : (contenders.foldl (kill_step w pos) (flags, 0, events)).2.1 =
        contenders.length - 1 := by
      rw [c3, filter_ne_length_of_nodup w contenders hnd hw_mem]
      omega
    have hpos : 0 < (contenders.foldl (kill_step w pos) (flags, 0, events)).2.1 := by
      rw [hcount]; omega
    rw [process_group_single lengths moved flags events pos contenders w h2 hw,
      if_pos hpos]
    refine ⟨?_, ?_, ?_⟩
    · have hw_not : w ∉ contenders.filter (fun i => decide (i ≠ w)) := by
        intro h
        have := List.of_mem_filter h
        simp at this
      rw [c1 w hw_not]
      exact hal w hw_mem
    · intro i hi hiw
      exact ⟨c2 i hi hiw, c5 i hi hiw⟩
    · intro hex
      rw [hcount]
      exact kills_of_award_kill moved w (contenders.length - 1) hex
  · intro hs
    obtain ⟨c1, _, c3⟩ := kill_all_fold_spec pos contenders flags events hnd hal
    rw [process_group_tie lengths moved flags events pos contenders h2 (by omega)]
    exact ⟨rfl, fun i hi => ⟨c1 i hi, c3 i hi⟩⟩

/-- Witness scenario for C1: two snakes meeting head-on at `(3, 3)`, snake 0
of length 3 and snake 1 of length 2, both flagged alive. -/
def witness_moved_h2h : List SnakeState :=
  [{ id := 0, body := [⟨3, 3⟩, ⟨2, 3⟩, ⟨1, 3⟩], direction := .right },
   { id := 1, body := [⟨3, 3⟩, ⟨4, 3⟩], direction := .left }]

theorem C1_head_to_head_resolution_witness :
    (2 ≤ [0, 1].length ∧ [0, 1].Nodup ∧
      (∀ i ∈ [0, 1], (fun _ => true) i = true) ∧
      [0, 1].filter
        (fun i => decide ((fun j => if j = 0 then 3 else 2) i =
          (([0, 1].map (fun j => if j = 0 then 3 else 2)).foldl max 0))) = [0] ∧
      (∃ s ∈ witness_moved_h2h, s.id = 0)) ∧
    (process_group (fun j => if j = 0 then 3 else 2)
        (witness_moved_h2h, (fun _ => true), []) (⟨3, 3⟩, [0, 1])).2.1 0 = true ∧
    (process_group (fun j => if j = 0 then 3 else 2)
        (witness_moved_h2h, (fun _ => true), []) (⟨3, 3⟩, [0, 1])).2.1 1 = false ∧
    kills_of (process_group (fun j => if j = 0 then 3 else 2)
        (witness_moved_h2h, (fun _ => true), []) (⟨3, 3⟩, [0, 1])).1 0 =
      kills_of witness_moved_h2h 0 + 1 := by
  have h := C1_head_to_head_resolution (fun j => if j = 0 then 3 else 2)
    witness_moved_h2h (fun _ => true) [] ⟨3, 3⟩ [0, 1]
    (by decide) (by decide) (by intro i _; rfl)
  have h1 := h.1 0 (by decide)
  have hex : ∃ s ∈ witness_moved_h2h, s.id = 0 :=
    ⟨{ id := 0, body := [⟨3, 3⟩, ⟨2, 3⟩, ⟨1, 3⟩], direction := .right },
      by simp [witness_moved_h2h], rfl⟩
  refine ⟨⟨by decide, by decide, by intro i _; rfl, by decide, hex⟩, h1.1, ?_, ?_⟩
  · exact (h1.2.1 1 (by decide) (by decide)).1
  · have := h1.2.2 hex
    simpa using this

/- ### C3: occupancy characterization -/

theorem occ_write_fold (i : Nat) :
    ∀ (body : List Position) (a : Position → Option Nat) (p : Position),
      (body.foldl (fun acc seg => Function.update acc seg (some i)) a) p =
        if p ∈ body then some i else a p := by
  intro body
  induction body with
  | nil => intro a p; simp
  | cons seg rest ih =>
    intro a p
    rw [List.foldl_cons, ih]
    by_cases hp : p ∈ rest
    · simp [hp]
    · by_cases hps : p = seg
      · subst hps; simp [hp]
      · simp [hp, hps, Function.update_noteq hps]

theorem occ_fold_frame :
    ∀ (snakes : List SnakeState) (a : Position → Option Nat) (p : Position),
      (∀ t ∈ snakes, t.alive = true → p ∉ t.body) →
      (snakes.foldl occupancy_step a) p = a p := by
  intro snakes
  induction snakes with
  | nil => intro a p _; rfl
  | cons t rest ih =>
    intro a p h
    rw [List.foldl_cons]
    rw [ih _ p (fun u hu => h u (by simp [hu]))]
    by_cases ht : t.alive
    · rw [occupancy_step, if_pos ht, occ_write_fold,
        if_neg (h t (by simp) ht)]
    · rw [occupancy_step, if_neg ht]

theorem occ_fold_sound :
    ∀ (snakes : List SnakeState) (a : Position → Option Nat) (p : Position) (i : Nat),
      (snakes.foldl occupancy_step a) p = some i →
      (∃ s ∈ snakes, s.alive = true ∧ s.id = i ∧ p ∈ s.body) ∨ a p = some i := by
  intro snakes
  induction snakes with
  | nil => intro a p i h; exact Or.inr h
  | cons t rest ih =>
    intro a p i h
    rw [List.foldl_cons] at h
    rcases ih _ p i h with h1 | h1
    · obtain ⟨s, hs, hprops⟩ := h1
      exact Or.inl ⟨s, by simp [hs], hprops⟩
    · by_cases ht : t.alive
      · rw [occupancy_step, if_pos ht, occ_write_fold] at h1
        by_cases hp : p ∈ t.body
        · rw [if_pos hp] at h1
          exact Or.inl ⟨t, by simp, ht, Option.some.inj h1, hp⟩
        · rw [if_neg hp] at h1
          exact Or.inr h1
      · rw [occupancy_step, if_neg ht] at h1
        exact Or.inr h1

theorem occ_fold_covers :
    ∀ (snakes : List SnakeState) (a : Position → Option Nat) (p : Position),
      ((∃ s ∈ snakes, s.alive = true ∧ p ∈ s.body) ∨ (a p).isSome = true) →
      ((snakes.foldl occupancy_step a) p).isSome = true := by
  intro snakes
  induction snakes with
  | nil =>
    intro a p h
    rcases h with ⟨s, hs, _⟩ | h
    · simp at hs
    · exact h
  | cons t rest ih =>
    intro a p h
    rw [List.foldl_cons]
    apply ih
    rcases h with ⟨s, hs, hsa, hsp⟩ | h
    · rcases List.mem_cons.mp hs with h1 | h1
      · subst h1
        right
        rw [occupancy_step, if_pos hsa, occ_write_fold, if_pos hsp]
        rfl
      · exact Or.inl ⟨s, h1, hsa, hsp⟩
    · right
      by_cases ht : t.alive
      · rw [occupancy_step, if_pos ht, occ_write_fold]
        by_cases hp : p ∈ t.body
        · rw [if_pos hp]; rfl
        · rwa [if_neg hp]
      · rwa [occupancy_step, if_neg ht]

/-- Two snakes have disjoint bodies whenever both are alive. -/
def body_disjoint (s t : SnakeState) : Prop :=
  s.alive = true → t.alive = true → ∀ q ∈ s.body, q ∉ t.body

theorem occ_fold_owner :
    ∀ (snakes : List SnakeState) (a : Position → Option Nat) (p : Position),
      List.Pairwise body_disjoint snakes →
      ∀ s ∈ snakes, s.alive = true → p ∈ s.body →
        (snakes.foldl occupancy_step a) p = some s.id := by
  intro snakes
  induction snakes with
  | nil => intro a p _ s hs; simp at hs
  | cons t rest ih =>
    intro a p hpw s hs hsa hsp
    obtain ⟨hhead, htail⟩ := List.pairwise_cons.mp hpw
    rw [List.foldl_cons]
    rcases List.mem_cons.mp hs with h1 | h1
    · subst h1
      rw [occ_fold_frame rest _ p
        (fun u hu hua => (hhead u hu) hsa hua p hsp)]
      rw [occupancy_step, if_pos hsa, occ_write_fold, if_pos hsp]
    · exact ih _ p htail s h1 hsa hsp

theorem build_occupancy_filter (snakes : List SnakeState) :
    build_occupancy (snakes.filter (fun s => s.alive)) = build_occupancy snakes := by
  unfold build_occupancy
  suffices h : ∀ (l : List SnakeState) (a : Position → Option Nat),
      (l.filter (fun s => s.alive)).foldl occupancy_step a = l.foldl occupancy_step a by
    exact h snakes _
  intro l
  induction l with
  | nil => intro a; rfl
  | cons t rest ih =>
    intro a
    by_cases ht : t.alive
    · rw [List.filter_cons_of_pos (by simpa using ht), List.foldl_cons,
        List.foldl_cons, ih]
    · rw [List.filter_cons_of_neg (by simpa using ht), List.foldl_cons, ih,
        occupancy_step, if_neg ht]

theorem occupied_exact_of_eq (st : GameState)
    (h : st.occupied = build_occupancy st.snakes) (p : Position) :
    (∀ i, st.occupied p = some i →
      ∃ s ∈ st.snakes, s.alive = true ∧ s.id = i ∧ p ∈ s.body) ∧
    ((∃ s ∈ st.snakes, s.alive = true ∧ p ∈ s.body) →
      (st.occupied p).isSome = true) ∧
    (List.Pairwise body_disjoint st.snakes →
      ∀ s ∈ st.snakes, s.alive = true → p ∈ s.body → st.occupied p = some s.id) := by
  refine ⟨?_, ?_, ?_⟩
  · intro i hi
    rw [h] at hi
    rcases occ_fold_sound st.snakes _ p i hi with h1 | h1
    · exact h1
    · exact absurd h1 (by simp)
  · intro hex
    rw [h]
    exact occ_fold_covers st.snakes _ p (Or.inl hex)
  · intro hpw s hs hsa hsp
    rw [h]
    exact occ_fold_owner st.snakes _ p hpw s hs hsa hsp

/-- Counterexample input for C3: `create_initial_state` accepts spawns whose
bodies overlap; the overlapped cell is owned by the later snake, so the
earlier alive snake's segment does not map to its own id. -/
theorem C3_occupied_counterexample :
    (create_initial_state 5 5
        [⟨0, [⟨2, 2⟩], Direction.right⟩, ⟨1, [⟨2, 2⟩], Direction.left⟩]
        0 id).snakes[0]? =
      some { id := 0, body := [⟨2, 2⟩], direction := Direction.right } ∧
    (create_initial_state 5 5
        [⟨0, [⟨2, 2⟩], Direction.right⟩, ⟨1, [⟨2, 2⟩], Direction.left⟩]
        0 id).occupied ⟨2, 2⟩ = some 1 ∧
    (create_initial_state 5 5
        [⟨0, [⟨2, 2⟩], Direction.right⟩, ⟨1, [⟨2, 2⟩], Direction.left⟩]
        0 id).occupied ⟨2, 2⟩ ≠ some 0 := by
  refine ⟨rfl, rfl, by decide⟩

/-- **C3** (amended).  Every `GameState` produced by `create_initial_state`
or `advance_state` has an occupied mapping whose domain is exactly the union
of the body segments of alive snakes: every occupied position maps to the id
of an alive snake whose body contains it, every segment of an alive snake is
occupied, dead snakes' corpse segments are excluded, and — whenever the alive
snakes' bodies are pairwise disjoint — every segment maps to its owner's
id. -/
theorem C3_occupied_amended (width height : Int) (spawns : List SnakeSpawn)
    (initial_food : Nat) (shuffle : List Position → List Position)
    (state : GameState) (decisions : Nat → Option Direction) (desired_food : Nat)
    (p : Position) :
    ∀ st ∈ [create_initial_state width height spawns initial_food shuffle,
        (advance_state state decisions shuffle desired_food).state],
      (∀ i, st.occupied p = some i →
        ∃ s ∈ st.snakes, s.alive = true ∧ s.id = i ∧ p ∈ s.body) ∧
      ((∃ s ∈ st.snakes, s.alive = true ∧ p ∈ s.body) →
        (st.occupied p).isSome = true) ∧
      (List.Pairwise body_disjoint st.snakes →
        ∀ s ∈ st.snakes, s.alive = true → p ∈ s.body →
          st.occupied p = some s.id) := by
  intro st hst
  rcases List.mem_cons.mp hst with h1 | h1
  · subst h1
    exact occupied_exact_of_eq _ rfl p
  · rcases List.mem_cons.mp h1 with h2 | h2
    · subst h2
      apply occupied_exact_of_eq _ _ p
      rw [← build_occupancy_filter]
      rfl
    · exact absurd h2 (List.not_mem_nil st)

theorem C3_occupied_amended_witness :
    (create_initial_state 7 7 [⟨0, [⟨2, 2⟩, ⟨1, 2⟩], Direction.right⟩]
        0 id).occupied ⟨2, 2⟩ = some 0 := by
  have h := C3_occupied_amended 7 7 [⟨0, [⟨2, 2⟩, ⟨1, 2⟩], Direction.right⟩] 0 id
    witness_state_food (fun _ => none) 1 ⟨2, 2⟩
    (create_initial_state 7 7 [⟨0, [⟨2, 2⟩, ⟨1, 2⟩], Direction.right⟩] 0 id)
    (List.mem_cons_self _ _)
  exact h.2.2
    (List.Pairwise.cons (fun b hb => absurd hb (List.not_mem_nil b))
      List.Pairwise.nil)
    { id := 0, body := [⟨2, 2⟩, ⟨1, 2⟩], direction := Direction.right }
    (by decide) rfl (by decide)

/- ### C4: food respawn -/

theorem mem_interior_cells (w h : Int) (p : Position) :
    p ∈ interior_cells w h ↔ is_within_bounds p w h = true := by
  obtain ⟨px, py⟩ := p
  simp only [interior_cells, List.mem_flatMap, List.mem_map, List.mem_range,
    is_within_bounds, Bool.and_eq_true, decide_eq_true_eq]
  constructor
  · rintro ⟨i, hi, j, hj, hp⟩
    rw [Position.mk.injEq] at hp
    obtain ⟨hx, hy⟩ := hp
    omega
  · intro hb
    refine ⟨(px - 1).toNat, by omega, (py - 1).toNat, by omega, ?_⟩
    rw [Position.mk.injEq]
    refine ⟨by omega, by omega⟩

theorem interior_cells_nodup (w h : Int) : (interior_cells w h).Nodup := by
  rw [interior_cells, List.nodup_flatMap]
  constructor
  · intro i _
    have hinj : Function.Injective
        (fun j : Nat => (⟨(i : Int) + 1, (j : Int) + 1⟩ : Position)) := by
      intro a b hab
      rw [Position.mk.injEq] at hab
      obtain ⟨_, h2⟩ := hab
      omega
    exact List.Nodup.map hinj (List.nodup_range _)
  · refine List.Pairwise.imp ?_ (List.pairwise_lt_range _)
    intro i j hij
    intro p hpi hpj
    simp only [List.mem_map, List.mem_range] at hpi hpj
    obtain ⟨a, _, ha⟩ := hpi
    obtain ⟨b, _, hb⟩ := hpj
    rw [← hb, Position.mk.injEq] at ha
    omega

theorem move_snakes_food_subset (decisions : Nat → Option Direction) :
    ∀ (snakes : List SnakeState) (food : Finset Position),
      (move_snakes decisions food snakes).2.1 ⊆ food := by
  intro snakes
  induction snakes with
  | nil => intro food; simp [move_snakes]
  | cons s rest ih =>
    intro food
    by_cases hs : s.alive
    · have h1 : (move_snake decisions food s).2.1 ⊆ food := by
        rw [move_snake]
        by_cases hnh : s.head.add (effective_direction decisions s) ∈ food
        · simp only [if_pos hnh]
          exact Finset.erase_subset _ _
        · simp only [if_neg hnh]
          exact Finset.Subset.refl _
      simp only [move_snakes, hs, if_true]
      exact (ih _).trans h1
    · simp [move_snakes, hs]
      exact ih food

/-- Membership in the `available` list computed by `_spawn_food`. -/
theorem mem_available_iff (w h : Int) (snakes : List SnakeState)
    (existing : Finset Position) (p : Position) :
    p ∈ (interior_cells w h).filter
        (fun q => !snakes.any (fun s => decide (q ∈ s.body)) && decide (q ∉ existing)) ↔
      is_within_bounds p w h = true ∧ (∀ s ∈ snakes, p ∉ s.body) ∧ p ∉ existing := by
  rw [List.mem_filter, mem_interior_cells]
  simp [List.any_eq_true]

theorem spawn_food_spec (w h : Int) (snakes : List SnakeState)
    (existing : Finset Position) (count : Nat)
    (shuffle : List Position → List Position) (hs : ∀ l, List.Perm (shuffle l) l) :
    (spawn_food w h snakes existing count shuffle).card ≤ existing.card + count ∧
    (count ≤ ((interior_cells w h).filter
        (fun q => !snakes.any (fun s => decide (q ∈ s.body)) &&
          decide (q ∉ existing))).length →
      (spawn_food w h snakes existing count shuffle).card = existing.card + count) ∧
    (∀ p ∈ spawn_food w h snakes existing count shuffle,
      p ∈ existing ∨ (is_within_bounds p w h = true ∧
        (∀ s ∈ snakes, p ∉ s.body) ∧ p ∉ existing)) := by
  have hmem_picked : ∀ p ∈ ((shuffle ((interior_cells w h).filter
      (fun q => !snakes.any (fun s => decide (q ∈ s.body)) &&
        decide (q ∉ existing)))).reverse.take count),
      p ∈ (interior_cells w h).filter
        (fun q => !snakes.any (fun s => decide (q ∈ s.body)) &&
          decide (q ∉ existing)) := by
    intro p hp
    have h1 := List.take_subset _ _ hp
    have h2 := List.mem_reverse.mp h1
    exact ((hs _).mem_iff).mp h2
  refine ⟨?_, ?_, ?_⟩
  · calc (spawn_food w h snakes existing count shuffle).card
        ≤ existing.card + (((shuffle _).reverse.take count).toFinset).card :=
          Finset.card_union_le _ _
      _ ≤ existing.card + count := by
          apply Nat.add_le_add_left
          refine le_trans (List.toFinset_card_le _) ?_
          rw [List.length_take]
          exact Nat.min_le_left _ _
  · intro hcount
    have hperm := hs ((interior_cells w h).filter
      (fun q => !snakes.any (fun s => decide (q ∈ s.body)) && decide (q ∉ existing)))
    have hnodupA : ((interior_cells w h).filter
        (fun q => !snakes.any (fun s => decide (q ∈ s.body)) &&
          decide (q ∉ existing))).Nodup :=
      (interior_cells_nodup w h).filter _
    have hnodup : (shuffle ((interior_cells w h).filter
        (fun q => !snakes.any (fun s => decide (q ∈ s.body)) &&
          decide (q ∉ existing)))).Nodup := hperm.nodup_iff.mpr hnodupA
    have hlen : ((shuffle ((interior_cells w h).filter
        (fun q => !snakes.any (fun s => decide (q ∈ s.body)) &&
          decide (q ∉ existing)))).reverse.take count).length = count := by
      rw [List.length_take, List.length_reverse, hperm.length_eq]
      exact Nat.min_eq_left hcount
    have hnodup_picked : ((shuffle ((interior_cells w h).filter
        (fun q => !snakes.any (fun s => decide (q ∈ s.body)) &&
          decide (q ∉ existing)))).reverse.take count).Nodup :=
      (List.take_sublist _ _).nodup (List.nodup_reverse.mpr hnodup)
    have hdisj : Disjoint existing
        (((shuffle ((interior_cells w h).filter
          (fun q => !snakes.any (fun s => decide (q ∈ s.body)) &&
            decide (q ∉ existing)))).reverse.take count).toFinset) := by
      rw [Finset.disjoint_right]
      intro p hp
      have := hmem_picked p (List.mem_toFinset.mp hp)
      exact ((mem_available_iff w h snakes existing p).mp this).2.2
    rw [spawn_food, Finset.card_union_of_disjoint hdisj,
      List.toFinset_card_of_nodup hnodup_picked, hlen]
  · intro p hp
    rw [spawn_food, Finset.mem_union] at hp
    rcases hp with hp | hp
    · exact Or.inl hp
    · exact Or.inr ((mem_available_iff w h snakes existing p).mp
        (hmem_picked p (List.mem_toFinset.mp hp)))

/-- Input showing the literal C4 bound fails: a state that already carries
more food than `desired_food`.  `advance_state` never trims excess food. -/
def c4_state : GameState :=
  { snakes := [], food := {⟨1, 1⟩, ⟨2, 1⟩}, occupied := fun _ => none,
    width := 5, height := 5 }

/-- Counterexample for C4 as stated: with two food items and
`desired_food = 1`, the next state still has two food items. -/
theorem C4_food_cap_counterexample :
    (advance_state c4_state (fun _ => none) id 1).state.food.card = 2 ∧
    ¬((advance_state c4_state (fun _ => none) id 1).state.food.card ≤ 1) := by
  exact ⟨by decide, by decide⟩

/-- **C4** (amended).  Provided the incoming state does not already exceed
the target (`state.food.card ≤ desired_food` — an invariant of actual play,
where the initial food count equals `desired_food`), every tick of
`advance_state` yields at most `desired_food` food items, with equality
whenever the grid interior has enough cells free of alive-snake segments and
remaining food to cover the shortfall; and every food item of the next state
is either left over from the movement phase or sits on an interior cell free
of every alive snake's body and of the remaining food. -/
theorem C4_food_respawn_amended (state : GameState)
    (decisions : Nat → Option Direction) (shuffle : List Position → List Position)
    (desired_food : Nat) (hs : ∀ l, List.Perm (shuffle l) l)
    (hfood : state.food.card ≤ desired_food)
    (F1 : Finset Position)
    (hF1 : F1 = (move_snakes decisions state.food state.snakes).2.1) :
    (advance_state state decisions shuffle desired_food).state.food.card ≤
      desired_food ∧
    (desired_food - F1.card ≤ ((interior_cells state.width state.height).filter
        (fun q => !((advance_state state decisions shuffle desired_food).state.snakes.filter
              (fun s => s.alive)).any (fun s => decide (q ∈ s.body)) &&
            decide (q ∉ F1))).length →
      (advance_state state decisions shuffle desired_food).state.food.card =
        desired_food) ∧
    (∀ p ∈ (advance_state state decisions shuffle desired_food).state.food,
      p ∈ F1 ∨
        (is_within_bounds p state.width state.height = true ∧
          (∀ s ∈ (advance_state state decisions shuffle desired_food).state.snakes,
            s.alive = true → p ∉ s.body) ∧ p ∉ F1)) := by
  have hfood_eq : (advance_state state decisions shuffle desired_food).state.food =
      if F1.card < desired_food then
        spawn_food state.width state.height
          ((advance_state state decisions shuffle desired_food).state.snakes.filter
            (fun s => s.alive))
          F1 (desired_food - F1.card) shuffle
      else F1 := by
    subst hF1; rfl
  have hF1card : F1.card ≤ desired_food := by
    subst hF1
    exact (Finset.card_le_card
      (move_snakes_food_subset decisions state.snakes state.food)).trans hfood
  obtain ⟨s1, s2, s3⟩ := spawn_food_spec state.width state.height
    ((advance_state state decisions shuffle desired_food).state.snakes.filter
      (fun s => s.alive))
    F1 (desired_food - F1.card) shuffle hs
  refine ⟨?_, ?_, ?_⟩
  · rw [hfood_eq]
    split_ifs with hlt
    · exact s1.trans (by omega)
    · exact hF1card
  · intro hfree
    rw [hfood_eq]
    split_ifs with hlt
    · rw [s2 hfree]; omega
    · omega
  · intro p hp
    rw [hfood_eq] at hp
    split_ifs at hp with hlt
    · rcases s3 p hp with h | ⟨hbnd, hbody, hex⟩
      · exact Or.inl h
      · refine Or.inr ⟨hbnd, ?_, hex⟩
        intro s hsmem hsa
        exact hbody s (List.mem_filter.mpr ⟨hsmem, hsa⟩)
    · exact Or.inl hp

theorem C4_food_respawn_amended_witness :
    witness_state_food.food.card ≤ 1 ∧
    (advance_state witness_state_food (fun _ => none) id 1).state.food.card ≤ 1 :=
  ⟨by decide,
   (C4_food_respawn_amended witness_state_food (fun _ => none) id 1
     (fun l => List.Perm.refl l) (by decide) ∅ (by decide)).1⟩

/- ### Pathfinder (`pathfinding.py`)

The A* loop is embedded with explicit fuel for the `while open_heap:` loop
(the Python loop terminates because the grid is finite; any sufficiently
large fuel reproduces it, and every theorem below holds for all fuels).  The
`heapq` heap is embedded as a plain list whose pop extracts the
lexicographically smallest `(priority, counter)` pair — the push counter is
strictly increasing, so entries are distinct and this is exactly the order
`heapq` pops `(priority, counter, distance, position)` tuples in. -/

/-- `_heuristic` from `pathfinding.py`: Manhattan distance. -/
def heuristic (pos goal : Position) : Nat := pos.distance_to goal

/-- `_is_walkable` from `pathfinding.py`: the goal cell is always walkable,
an unoccupied cell is walkable, and a cell occupied by the requester is
walkable exactly when it is the requester's current tail segment
(`snake.body[-1]`). -/
def is_walkable (state : GameState) (snake_id : Nat) (pos goal : Position) : Bool :=
  if pos = goal then true
  else
    match state.occupied pos with
    | none => true
    | some occupant =>
      if occupant = snake_id then
        match state.find_snake snake_id with
        | some snake => decide (snake.body.getLast? = some pos)
        | none => false
      else false

/-- `_neighbors` from `pathfinding.py`: in-bounds walkable neighbours in the
fixed direction enumeration order. -/
def neighbors (state : GameState) (snake_id : Nat) (pos goal : Position) :
    List Position :=
  (Direction.all.map (fun d => pos.add d)).filter
    (fun c => state.is_within_bounds c && is_walkable state snake_id c goal)

/-- Strict lexicographic order on `(priority, counter)` of heap entries. -/
def heap_lt (a b : Nat × Nat × Nat × Position) : Bool :=
  a.1 < b.1 || (a.1 = b.1 && a.2.1 < b.2.1)

/-- `heapq.heappop`: remove and return the smallest entry. -/
def heap_pop (heap : List (Nat × Nat × Nat × Position)) :
    Option ((Nat × Nat × Nat × Position) × List (Nat × Nat × Nat × Position)) :=
  match heap with
  | [] => none
  | e :: rest =>
    let m := rest.foldl (fun b x => if heap_lt x b then x else b) e
    some (m, (e :: rest).erase m)

/-- The mutable search state of `find_path`. -/
structure AStarState where
  heap : List (Nat × Nat × Nat × Position)
  came_from : Position → Option Position
  g_score : Position → Option Nat
  visited : List Position
  counter : Nat

/-- Neighbour relaxation in the inner loop of `find_path`: if the tentative
cost improves on the recorded `g_score` (an absent key is infinite), record
the predecessor and cost and push a heap entry with a fresh counter. -/
def astar_push (goal current : Position) (distance : Nat)
    (st : AStarState) (neighbor : Position) : AStarState :=
  let tentative := distance + 1
  let better : Bool := match st.g_score neighbor with
    | some g => decide (tentative < g)
    | none => true
  if better then
    { st with
      came_from := Function.update st.came_from neighbor (some current),
      g_score := Function.update st.g_score neighbor (some tentative),
      counter := st.counter + 1,
      heap := st.heap ++
        [(tentative + heuristic neighbor goal, st.counter + 1, tentative, neighbor)] }
  else st

/-- `_reconstruct_path` from `pathfinding.py`: follow `came_from` links back
to a node without a link, listing positions in forward order.  The `while`
loop is given fuel; the caller passes the popped entry's recorded distance,
which bounds the chain length. -/
def reconstruct_path (came_from : Position → Option Position) :
    Nat → Position → List Position
  | 0, _ => []
  | fuel + 1, current =>
    match came_from current with
    | some prev => reconstruct_path came_from fuel prev ++ [current]
    | none => []

/-- The `while open_heap:` loop of `find_path`: pop the smallest entry, skip
it if already visited, return the reconstructed path if it is the goal, and
otherwise relax its neighbours. -/
def find_path_loop (state : GameState) (snake_id : Nat) (goal : Position) :
    Nat → AStarState → Option (List Position)
  | 0, _ => none
  | fuel + 1, st =>
    match heap_pop st.heap with
    | none => none
    | some (e, rest) =>
      if e.2.2.2 ∈ st.visited then
        find_path_loop state snake_id goal fuel { st with heap := rest }
      else
        if e.2.2.2 = goal then
          some (reconstruct_path st.came_from e.2.2.1 e.2.2.2)
        else
          find_path_loop state snake_id goal fuel
            ((neighbors state snake_id e.2.2.2 goal).foldl
              (astar_push goal e.2.2.2 e.2.2.1)
              { st with heap := rest, visited := e.2.2.2 :: st.visited })

/-- `find_path` from `pathfinding.py`: empty path when start equals goal,
otherwise the A* loop from a heap holding only the start entry. -/
def find_path (state : GameState) (snake_id : Nat) (start goal : Position)
    (fuel : Nat) : Option (List Position) :=
  if start = goal then some []
  else
    find_path_loop state snake_id goal fuel
      { heap := [(heuristic start goal, 0, 0, start)],
        came_from := fun _ => none,
        g_score := Function.update (fun _ => none) start (some 0),
        visited := [],
        counter := 0 }

/- ### C6: path validity -/

/-- A cell the search may step onto: in bounds and `_is_walkable`. -/
def walkable_cell (state : GameState) (snake_id : Nat) (goal c : Position) : Prop :=
  (state.is_within_bounds c && is_walkable state snake_id c goal) = true

/-- `valid_step_path a p`: `p` is a chain of in-bounds walkable cells, each
adjacent to its predecessor, starting (exclusively) at `a`. -/
def valid_step_path (state : GameState) (snake_id : Nat) (goal : Position) :
    Position → List Position → Prop
  | _, [] => True
  | a, c :: rest =>
    walkable_cell state snake_id goal c ∧ (∃ d, a.add d = c) ∧
      valid_step_path state snake_id goal c rest

/-- The cell a path ends on (its last element, or `a` when it is empty). -/
def path_end (a : Position) : List Position → Position
  | [] => a
  | c :: rest => path_end c rest

/-- A path as returned by `find_path`: a walkable chain from `start`
(exclusive) whose last cell is `goal` (an empty path requires
`start = goal`). -/
def valid_path (state : GameState) (snake_id : Nat) (goal start : Position)
    (path : List Position) : Prop :=
  valid_step_path state snake_id goal start path ∧ path_end start path = goal

theorem path_end_append (n : Position) :
    ∀ (p : List Position) (a : Position), path_end a (p ++ [n]) = n := by
  intro p
  induction p with
  | nil => intro a; rfl
  | cons c rest ih => intro a; exact ih c

theorem position_add_ne (p : Position) (d : Direction) : p.add d ≠ p := by
  obtain ⟨px, py⟩ := p
  intro h
  cases d <;> simp [Position.add, Direction.delta, Position.mk.injEq] at h

theorem direction_mem_all (d : Direction) : d ∈ Direction.all := by
  cases d <;> simp [Direction.all]

theorem mem_neighbors (state : GameState) (snake_id : Nat) (pos goal c : Position) :
    c ∈ neighbors state snake_id pos goal ↔
      (∃ d, pos.add d = c) ∧
        (state.is_within_bounds c && is_walkable state snake_id c goal) = true := by
  constructor
  · intro hc
    obtain ⟨hmem, hpred⟩ := List.mem_filter.mp hc
    obtain ⟨d, _, hd⟩ := List.mem_map.mp hmem
    exact ⟨⟨d, hd⟩, hpred⟩
  · rintro ⟨⟨d, hd⟩, hpred⟩
    exact List.mem_filter.mpr ⟨List.mem_map.mpr ⟨d, direction_mem_all d, hd⟩, hpred⟩

theorem foldl_min_mem {α : Type} (f : α → α → Bool) :
    ∀ (l : List α) (b : α),
      l.foldl (fun acc x => if f x acc then x else acc) b ∈ b :: l := by
  intro l
  induction l with
  | nil => intro b; simp
  | cons x r ih =>
    intro b
    rw [List.foldl_cons]
    by_cases hfx : f x b
    · simp only [if_pos hfx]
      exact List.mem_cons_of_mem b (ih x)
    · simp only [if_neg hfx]
      rcases List.mem_cons.mp (ih b) with h | h
      · rw [h]
        exact List.mem_cons_self _ _
      · exact List.mem_cons_of_mem b (List.mem_cons_of_mem x h)

theorem heap_pop_mem (heap : List (Nat × Nat × Nat × Position))
    (e : Nat × Nat × Nat × Position) (rest : List (Nat × Nat × Nat × Position))
    (h : heap_pop heap = some (e, rest)) :
    e ∈ heap ∧ ∀ x ∈ rest, x ∈ heap := by
  match heap with
  | [] => simp [heap_pop] at h
  | e0 :: r =>
    rw [heap_pop] at h
    have he := Option.some.inj h
    have he1 : e = r.foldl (fun b x => if heap_lt x b then x else b) e0 :=
      (congrArg Prod.fst he).symm
    have he2 : rest = (e0 :: r).erase
        (r.foldl (fun b x => if heap_lt x b then x else b) e0) :=
      (congrArg Prod.snd he).symm
    constructor
    · rw [he1]
      exact foldl_min_mem heap_lt r e0
    · intro x hx
      rw [he2] at hx
      exact (List.erase_sublist _ _).subset hx

/-- Loop invariant of the embedded A* search. -/
structure AStarInv (state : GameState) (snake_id : Nat) (start goal : Position)
    (st : AStarState) : Prop where
  g_start : st.g_score start = some 0
  cf_start : st.came_from start = none
  cf_ok : ∀ n c, st.came_from n = some c →
    walkable_cell state snake_id goal n ∧ (∃ d, c.add d = n) ∧
    ∃ gn gc, st.g_score n = some gn ∧ st.g_score c = some gc ∧ gc < gn
  cf_closed : ∀ n c, st.came_from n = some c →
    c = start ∨ (st.came_from c).isSome = true
  heap_ok : ∀ e ∈ st.heap,
    (e.2.2.2 = start ∨ (st.came_from e.2.2.2).isSome = true) ∧
    ∃ g, st.g_score e.2.2.2 = some g ∧ g ≤ e.2.2.1

theorem valid_step_path_append (state : GameState) (snake_id : Nat)
    (goal : Position) :
    ∀ (p : List Position) (a n : Position),
      valid_step_path state snake_id goal a p →
      walkable_cell state snake_id goal n →
      (∃ d, (path_end a p).add d = n) →
      valid_step_path state snake_id goal a (p ++ [n]) := by
  intro p
  induction p with
  | nil =>
    intro a n _ hw hd
    exact ⟨hw, hd, trivial⟩
  | cons c rest ih =>
    intro a n hv hw hd
    obtain ⟨h1, h2, h3⟩ := hv
    exact ⟨h1, h2, ih c n h3 hw hd⟩

theorem reconstruct_path_spec (state : GameState) (snake_id : Nat)
    (start goal : Position) (cf : Position → Option Position)
    (g : Position → Option Nat)
    (hok : ∀ n c, cf n = some c → walkable_cell state snake_id goal n ∧
      (∃ d, c.add d = n) ∧ ∃ gn gc, g n = some gn ∧ g c = some gc ∧ gc < gn)
    (hcl : ∀ n c, cf n = some c → c = start ∨ (cf c).isSome = true) :
    ∀ (fuel : Nat) (n : Position) (gn : Nat),
      g n = some gn → gn ≤ fuel → (n = start ∨ (cf n).isSome = true) →
      valid_step_path state snake_id goal start (reconstruct_path cf fuel n) ∧
        path_end start (reconstruct_path cf fuel n) = n ∧
        (reconstruct_path cf fuel n).length ≤ gn := by
  intro fuel
  induction fuel with
  | zero =>
    intro n gn hgn hle hn
    rcases hn with h | h
    · subst h
      exact ⟨trivial, rfl, by simp [reconstruct_path]⟩
    · obtain ⟨c, hc⟩ := Option.isSome_iff_exists.mp h
      obtain ⟨_, _, gn', gc, hgn', hgc, hlt⟩ := hok n c hc
      rw [hgn] at hgn'
      have := Option.some.inj hgn'
      omega
  | succ fuel ih =>
    intro n gn hgn hle hn
    cases hcfn : cf n with
    | none =>
      have hns : n = start := by
        rcases hn with h | h
        · exact h
        · rw [hcfn] at h
          exact absurd h (by simp)
      subst hns
      rw [show reconstruct_path cf (fuel + 1) n = [] from by
        simp [reconstruct_path, hcfn]]
      exact ⟨trivial, rfl, by simp⟩
    | some c =>
      obtain ⟨hw, hd, gn', gc, hgn', hgc, hlt⟩ := hok n c hcfn
      rw [hgn] at hgn'
      have hgneq : gn = gn' := Option.some.inj hgn'
      have hcn : c = start ∨ (cf c).isSome = true := hcl n c hcfn
      obtain ⟨v1, v2, v3⟩ := ih c gc hgc (by omega) hcn
      rw [show reconstruct_path cf (fuel + 1) n =
          reconstruct_path cf fuel c ++ [n] from by
        simp [reconstruct_path, hcfn]]
      refine ⟨?_, path_end_append n _ start, ?_⟩
      · apply valid_step_path_append state snake_id goal _ start n v1 hw
        rw [v2]
        exact hd
      · rw [List.length_append]
        simp
        omega

theorem astar_push_eq_update (goal current : Position) (distance : Nat)
    (st : AStarState) (nb : Position)
    (h : st.g_score nb = none ∨ ∃ g, st.g_score nb = some g ∧ distance + 1 < g) :
    astar_push goal current distance st nb =
      { st with
        came_from := Function.update st.came_from nb (some current),
        g_score := Function.update st.g_score nb (some (distance + 1)),
        counter := st.counter + 1,
        heap := st.heap ++
          [(distance + 1 + heuristic nb goal, st.counter + 1, distance + 1, nb)] } := by
  rw [astar_push]
  rcases h with h | ⟨g, hg, hlt⟩
  · simp [h]
  · simp [hg, hlt]

theorem astar_push_eq_skip (goal current : Position) (distance : Nat)
    (st : AStarState) (nb : Position) (g : Nat)
    (hg : st.g_score nb = some g) (hge : ¬ distance + 1 < g) :
    astar_push goal current distance st nb = st := by
  rw [astar_push]
  simp [hg, hge]

theorem astar_update_inv (state : GameState) (snake_id : Nat)
    (start goal current : Position) (distance : Nat) (st : AStarState)
    (hInv : AStarInv state snake_id start goal st)
    (hcur : current = start ∨ (st.came_from current).isSome = true)
    (hg : ∃ gc, st.g_score current = some gc ∧ gc ≤ distance)
    (nb : Position) (hnb : nb ∈ neighbors state snake_id current goal)
    (hbet : st.g_score nb = none ∨
      ∃ g, st.g_score nb = some g ∧ distance + 1 < g) :
    AStarInv state snake_id start goal
      { st with
        came_from := Function.update st.came_from nb (some current),
        g_score := Function.update st.g_score nb (some (distance + 1)),
        counter := st.counter + 1,
        heap := st.heap ++
          [(distance + 1 + heuristic nb goal, st.counter + 1, distance + 1, nb)] } := by
  obtain ⟨hdnb, hwnb⟩ := (mem_neighbors state snake_id current goal nb).mp hnb
  obtain ⟨d, hd⟩ := hdnb
  have hnbne : current ≠ nb := fun h => position_add_ne current d (by rw [hd, ← h])
  obtain ⟨gc0, hgc0, hgc0le⟩ := hg
  have hnbstart : nb ≠ start := by
    intro h
    rw [h, hInv.g_start] at hbet
    rcases hbet with h1 | ⟨g, h1, h2⟩
    · exact Option.noConfusion h1
    · have := Option.some.inj h1
      omega
  refine
    { g_start := ?_, cf_start := ?_, cf_ok := ?_, cf_closed := ?_, heap_ok := ?_ }
  · dsimp only
    rw [Function.update_noteq (Ne.symm hnbstart)]
    exact hInv.g_start
  · dsimp only
    rw [Function.update_noteq (Ne.symm hnbstart)]
    exact hInv.cf_start
  · intro n c hcf
    dsimp only at hcf ⊢
    by_cases hnnb : n = nb
    · subst hnnb
      rw [Function.update_same] at hcf
      have hc : c = current := (Option.some.inj hcf).symm
      subst hc
      refine ⟨hwnb, ⟨d, hd⟩, distance + 1, gc0, Function.update_same _ _ _, ?_, ?_⟩
      · rw [Function.update_noteq hnbne]
        exact hgc0
      · omega
    · rw [Function.update_noteq hnnb] at hcf
      obtain ⟨hw, hd2, gn, gcold, hgn, hgcold, hlt⟩ := hInv.cf_ok n c hcf
      refine ⟨hw, hd2, gn, ?_⟩
      rw [Function.update_noteq hnnb]
      by_cases hcnb : c = nb
      · subst hcnb
        rcases hbet with h1 | ⟨g, h1, h2⟩
        · rw [h1] at hgcold
          exact Option.noConfusion hgcold
        · rw [h1] at hgcold
          have := Option.some.inj hgcold
          exact ⟨distance + 1, hgn, Function.update_same _ _ _, by omega⟩
      · exact ⟨gcold, hgn, by rw [Function.update_noteq hcnb]; exact hgcold, hlt⟩
  · intro n c hcf
    dsimp only at hcf ⊢
    by_cases hnnb : n = nb
    · subst hnnb
      rw [Function.update_same] at hcf
      have hc : c = current := (Option.some.inj hcf).symm
      subst hc
      rcases hcur with h1 | h1
      · exact Or.inl h1
      · right
        rw [Function.update_noteq hnbne]
        exact h1
    · rw [Function.update_noteq hnnb] at hcf
      rcases hInv.cf_closed n c hcf with h1 | h1
      · exact Or.inl h1
      · right
        by_cases hcnb : c = nb
        · subst hcnb
          rw [Function.update_same]
          rfl
        · rw [Function.update_noteq hcnb]
          exact h1
  · intro e he
    dsimp only at he ⊢
    rcases List.mem_append.mp he with he1 | he1
    · obtain ⟨hpos, g1, hg1, hle1⟩ := hInv.heap_ok e he1
      constructor
      · rcases hpos with h1 | h1
        · exact Or.inl h1
        · right
          by_cases hpnb : e.2.2.2 = nb
          · rw [hpnb, Function.update_same]
            rfl
          · rw [Function.update_noteq hpnb]
            exact h1
      · by_cases hpnb : e.2.2.2 = nb
        · rw [hpnb, Function.update_same]
          rw [hpnb] at hg1
          rcases hbet with h1 | ⟨g2, h1, h2⟩
          · rw [h1] at hg1
            exact Option.noConfusion hg1
          · rw [h1] at hg1
            have := Option.some.inj hg1
            exact ⟨distance + 1, rfl, by omega⟩
        · rw [Function.update_noteq hpnb]
          exact ⟨g1, hg1, hle1⟩
    · rw [List.mem_singleton.mp he1]
      dsimp only
      refine ⟨Or.inr ?_, distance + 1, Function.update_same _ _ _, le_refl _⟩
      rw [Function.update_same]
      rfl

theorem astar_push_inv (state : GameState) (snake_id : Nat)
    (start goal current : Position) (distance : Nat) (st : AStarState)
    (hInv : AStarInv state snake_id start goal st)
    (hcur : current = start ∨ (st.came_from current).isSome = true)
    (hg : ∃ gc, st.g_score current = some gc ∧ gc ≤ distance)
    (nb : Position) (hnb : nb ∈ neighbors state snake_id current goal) :
    AStarInv state snake_id start goal (astar_push goal current distance st nb) ∧
      (current = start ∨
        ((astar_push goal current distance st nb).came_from current).isSome = true) ∧
      (∃ gc, (astar_push goal current distance st nb).g_score current = some gc ∧
        gc ≤ distance) := by
  obtain ⟨hdnb, _⟩ := (mem_neighbors state snake_id current goal nb).mp hnb
  obtain ⟨d, hd⟩ := hdnb
  have hnbne : current ≠ nb := fun h => position_add_ne current d (by rw [hd, ← h])
  obtain ⟨gc0, hgc0, hgc0le⟩ := hg
  cases hgnb : st.g_score nb with
  | none =>
    rw [astar_push_eq_update goal current distance st nb (Or.inl hgnb)]
    refine ⟨astar_update_inv state snake_id start goal current distance st hInv
      hcur ⟨gc0, hgc0, hgc0le⟩ nb hnb (Or.inl hgnb), ?_, ?_⟩
    · rcases hcur with h1 | h1
      · exact Or.inl h1
      · right
        dsimp only
        rw [Function.update_noteq hnbne]
        exact h1
    · refine ⟨gc0, ?_, hgc0le⟩
      dsimp only
      rw [Function.update_noteq hnbne]
      exact hgc0
  | some g =>
    by_cases hlt : distance + 1 < g
    · rw [astar_push_eq_update goal current distance st nb (Or.inr ⟨g, hgnb, hlt⟩)]
      refine ⟨astar_update_inv state snake_id start goal current distance st hInv
        hcur ⟨gc0, hgc0, hgc0le⟩ nb hnb (Or.inr ⟨g, hgnb, hlt⟩), ?_, ?_⟩
      · rcases hcur with h1 | h1
        · exact Or.inl h1
        · right
          dsimp only
          rw [Function.update_noteq hnbne]
          exact h1
      · refine ⟨gc0, ?_, hgc0le⟩
        dsimp only
        rw [Function.update_noteq hnbne]
        exact hgc0
    · rw [astar_push_eq_skip goal current distance st nb g hgnb hlt]
      exact ⟨hInv, hcur, gc0, hgc0, hgc0le⟩

theorem astar_fold_inv (state : GameState) (snake_id : Nat)
    (start goal current : Position) (distance : Nat) :
    ∀ (nbs : List Position) (st : AStarState),
      (∀ nb ∈ nbs, nb ∈ neighbors state snake_id current goal) →
      AStarInv state snake_id start goal st →
      (current = start ∨ (st.came_from current).isSome = true) →
      (∃ gc, st.g_score current = some gc ∧ gc ≤ distance) →
      AStarInv state snake_id start goal
        (nbs.foldl (astar_push goal current distance) st) := by
  intro nbs
  induction nbs with
  | nil => intro st _ hInv _ _; exact hInv
  | cons nb rest ih =>
    intro st hmem hInv hcur hg
    rw [List.foldl_cons]
    obtain ⟨h1, h2, h3⟩ := astar_push_inv state snake_id start goal current
      distance st hInv hcur hg nb (hmem nb (by simp))
    exact ih _ (fun x hx => hmem x (by simp [hx])) h1 h2 h3

theorem find_path_loop_valid (state : GameState) (snake_id : Nat)
    (start goal : Position) :
    ∀ (fuel : Nat) (st : AStarState), AStarInv state snake_id start goal st →
      ∀ path, find_path_loop state snake_id goal fuel st = some path →
        valid_step_path state snake_id goal start path ∧
          path_end start path = goal := by
  intro fuel
  induction fuel with
  | zero =>
    intro st _ path h
    simp [find_path_loop] at h
  | succ fuel ih =>
    intro st hInv path h
    rw [find_path_loop] at h
    cases hpop : heap_pop st.heap with
    | none =>
      rw [hpop] at h
      exact Option.noConfusion h
    | some pr =>
      obtain ⟨e, rest⟩ := pr
      rw [hpop] at h
      dsimp only at h
      obtain ⟨hemem, hrest⟩ := heap_pop_mem st.heap e rest hpop
      by_cases hv : e.2.2.2 ∈ st.visited
      · rw [if_pos hv] at h
        exact ih { st with heap := rest }
          { g_start := hInv.g_start, cf_start := hInv.cf_start,
            cf_ok := hInv.cf_ok, cf_closed := hInv.cf_closed,
            heap_ok := fun x hx => hInv.heap_ok x (hrest x hx) }
          path h
      · rw [if_neg hv] at h
        by_cases hgoal : e.2.2.2 = goal
        · rw [if_pos hgoal] at h
          have hpath := Option.some.inj h
          obtain ⟨hcs, g, hgs, hgle⟩ := hInv.heap_ok e hemem
          obtain ⟨w1, w2, _⟩ := reconstruct_path_spec state snake_id start goal
            st.came_from st.g_score hInv.cf_ok hInv.cf_closed
            e.2.2.1 e.2.2.2 g hgs hgle hcs
          rw [← hpath]
          exact ⟨w1, by rw [w2]; exact hgoal⟩
        · rw [if_neg hgoal] at h
          obtain ⟨hcs, g, hgs, hgle⟩ := hInv.heap_ok e hemem
          refine ih _ ?_ path h
          exact astar_fold_inv state snake_id start goal e.2.2.2 e.2.2.1
            (neighbors state snake_id e.2.2.2 goal)
            { st with heap := rest, visited := e.2.2.2 :: st.visited }
            (fun x hx => hx)
            { g_start := hInv.g_start, cf_start := hInv.cf_start,
              cf_ok := hInv.cf_ok, cf_closed := hInv.cf_closed,
              heap_ok := fun x hx => hInv.heap_ok x (hrest x hx) }
            hcs ⟨g, hgs, hgle⟩

/-- **C6.** `find_path(state, id, p, p)` returns the empty path; every
returned path is a chain of adjacent cells from start (exclusive) to goal
(inclusive) through in-bounds cells none of which is occupied by a live
snake other than the requester's own current tail segment or the goal cell
(the `_is_walkable` predicate); and when no such walkable chain to the goal
exists the function returns the unreachable marker `none` (it is a total
function, so it never raises). -/
theorem C6_find_path_spec (state : GameState) (snake_id : Nat)
    (start goal : Position) (fuel : Nat) :
    find_path state snake_id start start fuel = some [] ∧
    (∀ path, find_path state snake_id start goal fuel = some path →
      valid_path state snake_id goal start path) ∧
    ((¬ ∃ path, valid_path state snake_id goal start path) →
      find_path state snake_id start goal fuel = none) := by
  have hval : ∀ path, find_path state snake_id start goal fuel = some path →
      valid_path state snake_id goal start path := by
    intro path h
    by_cases hsg : start = goal
    · rw [find_path, if_pos hsg] at h
      have hpath := Option.some.inj h
      rw [← hpath]
      exact ⟨trivial, hsg⟩
    · rw [find_path, if_neg hsg] at h
      have hInv : AStarInv state snake_id start goal
          { heap := [(heuristic start goal, 0, 0, start)],
            came_from := fun _ => none,
            g_score := Function.update (fun _ => none) start (some 0),
            visited := [],
            counter := 0 } :=
        { g_start := by
            dsimp only
            exact Function.update_same start (some 0) (fun _ => none),
          cf_start := rfl,
          cf_ok := fun n c hc => Option.noConfusion hc,
          cf_closed := fun n c hc => Option.noConfusion hc,
          heap_ok := by
            intro e he
            dsimp only at he ⊢
            rw [List.mem_singleton.mp he]
            exact ⟨Or.inl rfl, 0,
              Function.update_same start (some 0) (fun _ => none), le_refl 0⟩ }
      exact find_path_loop_valid state snake_id start goal fuel _ hInv path h
  refine ⟨?_, hval, ?_⟩
  · rw [find_path, if_pos rfl]
  · intro hne
    cases hres : find_path state snake_id start goal fuel with
    | none => rfl
    | some path => exact absurd ⟨path, hval path hres⟩ hne

theorem C6_find_path_spec_witness :
    find_path witness_state_food 0 ⟨2, 2⟩ ⟨2, 2⟩ 5 = some [] ∧
    valid_path witness_state_food 0 ⟨3, 2⟩ ⟨2, 2⟩ [⟨3, 2⟩] :=
  ⟨(C6_find_path_spec witness_state_food 0 ⟨2, 2⟩ ⟨2, 2⟩ 5).1,
   (C6_find_path_spec witness_state_food 0 ⟨2, 2⟩ ⟨3, 2⟩ 5).2.1 [⟨3, 2⟩] (by decide)⟩

/- ### Decision engine (`ai.py`) -/

/-- `AIConfig` from `config.py` (the two fields the decision engine reads). -/
structure AIConfig where
  SPACE_SEARCH_LIMIT : Nat := 18
  MAX_PATH_LENGTH : Nat := 64

/-- `_is_cell_safe` from `ai.py`: an unoccupied cell is safe; a cell occupied
by another snake is not; a cell occupied by the agent itself is safe exactly
when tail-leniency is on and it is the agent's current tail segment. -/
def is_cell_safe (state : GameState) (snake : SnakeState) (pos : Position)
    (allow_tail : Bool) : Bool :=
  match state.occupied pos with
  | none => true
  | some occupant =>
    if occupant ≠ snake.id then false
    else if allow_tail = false then false
    else decide (snake.body.getLast? = some pos)

/-- `_safe_directions` from `ai.py`: not the reverse (for snakes longer than
one segment), in bounds, and cell-safe with tail-leniency. -/
def safe_directions (state : GameState) (snake : SnakeState) : List Direction :=
  Direction.all.filter (fun d =>
    !(decide (1 < snake.length) && decide (d = snake.direction.opposite)) &&
    state.is_within_bounds (snake.head.add d) &&
    is_cell_safe state snake (snake.head.add d) true)

/-- `_permissive_directions` from `ai.py`: in bounds and cell-safe without
tail-leniency; the reverse direction is allowed. -/
def permissive_directions (state : GameState) (snake : SnakeState) : List Direction :=
  Direction.all.filter (fun d =>
    state.is_within_bounds (snake.head.add d) &&
    is_cell_safe state snake (snake.head.add d) false)

/-- Lexicographic order on positions — the deterministic iteration order the
embedding uses for `min` over the food `frozenset` (computable, so concrete
witnesses evaluate). -/
instance : LinearOrder Position where
  le a b := a.x < b.x ∨ (a.x = b.x ∧ a.y ≤ b.y)
  le_refl a := Or.inr ⟨rfl, le_refl _⟩
  le_trans a b c hab hbc := by
    rcases hab with h | ⟨h1, h2⟩ <;> rcases hbc with h' | ⟨h1', h2'⟩ <;>
      first
      | exact Or.inl (by omega)
      | exact Or.inr ⟨by omega, by omega⟩
  le_antisymm a b hab hba := by
    have hx : a.x = b.x := by
      rcases hab with h | ⟨h1, h2⟩ <;> rcases hba with h' | ⟨h1', h2'⟩ <;> omega
    have hy : a.y = b.y := by
      rcases hab with h | ⟨h1, h2⟩ <;> rcases hba with h' | ⟨h1', h2'⟩ <;> omega
    obtain ⟨ax, ay⟩ := a
    obtain ⟨bx, byy⟩ := b
    simp only at hx hy
    rw [Position.mk.injEq]
    exact ⟨hx, hy⟩
  le_total a b := by
    by_cases h : a.x < b.x ∨ (a.x = b.x ∧ a.y ≤ b.y)
    · exact Or.inl h
    · right
      by_cases h2 : b.x < a.x
      · exact Or.inl h2
      · push_neg at h
        exact Or.inr ⟨by omega, by omega⟩
  decidableLE := fun a b =>
    inferInstanceAs (Decidable (a.x < b.x ∨ (a.x = b.x ∧ a.y ≤ b.y)))

/-- The food set as a lexicographically sorted list (a computable,
permutation-invariant extraction from the `Finset`). -/
def sorted_food (food : Finset Position) : List Position :=
  Quot.liftOn food.val (fun l => List.insertionSort (· ≤ ·) l)
    (fun _ _ h =>
      List.eq_of_perm_of_sorted
        ((List.perm_insertionSort _ _).trans
          (h.trans (List.perm_insertionSort _ _).symm))
        (List.sorted_insertionSort _ _) (List.sorted_insertionSort _ _))

/-- `_nearest_food` from `ai.py`: the food item of minimal Manhattan distance
to the head.  Python's `min` over a `frozenset` iterates in an unspecified
deterministic order; the embedding iterates in lexicographic position order
(the spec allows any deterministic tie-break). -/
def nearest_food (state : GameState) (head : Position) : Option Position :=
  match sorted_food state.food with
  | [] => none
  | p :: rest =>
    some (rest.foldl
      (fun b q => if head.distance_to q < head.distance_to b then q else b) p)

/-- `_nearest_rival` from `ai.py`: the alive opponent whose head is nearest
(first such opponent in snake-list order on ties, like Python's `min`). -/
def nearest_rival (state : GameState) (snake : SnakeState) : Option SnakeState :=
  match state.snakes.filter (fun o => o.alive && o.id ≠ snake.id) with
  | [] => none
  | o :: rest =>
    some (rest.foldl
      (fun b x =>
        if snake.head.distance_to x.head < snake.head.distance_to b.head then x
        else b) o)

/-- `_distance_to_nearest_enemy` from `ai.py`. -/
def distance_to_nearest_enemy (state : GameState) (snake : SnakeState)
    (position : Position) : Nat :=
  match (state.snakes.filter (fun o => o.alive && o.id ≠ snake.id)).map
      (fun o => position.distance_to o.head) with
  | [] => position.distance_to snake.head
  | d :: rest => rest.foldl min d

/-- `Position.neighbors` from `models.py`, in direction enumeration order. -/
def position_neighbors (p : Position) : List Position :=
  Direction.all.map (fun d => p.add d)

/-- The `while` loop of `_available_space`, with explicit fuel: pop the
frontier head, add each unvisited in-bounds cell-safe neighbour to the
visited set and the frontier, until the frontier empties or the visited
count reaches the limit. -/
def available_space_loop (state : GameState) (snake : SnakeState) (limit : Nat) :
    Nat → List Position → Finset Position → Nat
  | 0, _, visited => visited.card
  | fuel + 1, frontier, visited =>
    match frontier with
    | [] => visited.card
    | current :: rest =>
      if visited.card < limit then
        let step := (position_neighbors current).foldl
          (fun (acc : List Position × Finset Position) neighbor =>
            if neighbor ∈ acc.2 then acc
            else if !(state.is_within_bounds neighbor) then acc
            else if !(is_cell_safe state snake neighbor true) then acc
            else (acc.1 ++ [neighbor], insert neighbor acc.2))
          (rest, visited)
        available_space_loop state snake limit fuel step.1 step.2
      else visited.card

/-- `_available_space` from `ai.py`: bounded flood fill from the head cell
reached by `direction`, treating the agent's own body as visited. -/
def available_space (state : GameState) (snake : SnakeState)
    (direction : Direction) (ai_config : AIConfig) (fuel : Nat) : Nat :=
  let head := snake.head.add direction
  available_space_loop state snake ai_config.SPACE_SEARCH_LIMIT fuel
    [head] (insert head snake.body.toFinset)

/-- The candidate score a direction receives in `_choose_toward_target`
(`none` when the branch `continue`s): a found path scores `(0, length)`
unless longer than the cap; a missing path scores `(1, resulting distance)`
only when it strictly reduces the Manhattan distance to the target. -/
def target_score (state : GameState) (snake : SnakeState) (target : Position)
    (ai_config : AIConfig) (fuel : Nat) (direction : Direction) :
    Option (Nat × Nat) :=
  let next_head := snake.head.add direction
  match find_path state snake.id next_head target fuel with
  | none =>
    if next_head.distance_to target ≥ snake.head.distance_to target then none
    else some (1, next_head.distance_to target)
  | some path =>
    if path.length > ai_config.MAX_PATH_LENGTH then none
    else some (0, path.length)

/-- Python's `candidate < best_score` on the `(kind, value)` pairs:
strict lexicographic order. -/
def score_lt (a b : Nat × Nat) : Bool :=
  a.1 < b.1 || (a.1 = b.1 && a.2 < b.2)

/-- The `best_score is None or candidate < best_score` update of
`_choose_toward_target`. -/
def better_candidate (acc : Option Direction × Option (Nat × Nat))
    (candidate : Nat × Nat) (direction : Direction) :
    Option Direction × Option (Nat × Nat) :=
  match acc.2 with
  | none => (some direction, some candidate)
  | some best =>
    if score_lt candidate best then (some direction, some candidate) else acc

/-- `_choose_toward_target` from `ai.py`: fold the candidate directions in
enumeration order, keeping the first direction of strictly smallest score. -/
def choose_toward_target (state : GameState) (snake : SnakeState)
    (options : List Direction) (target : Position) (ai_config : AIConfig)
    (fuel : Nat) : Option Direction :=
  (options.foldl
    (fun acc direction =>
      match target_score state snake target ai_config fuel direction with
      | none => acc
      | some candidate => better_candidate acc candidate direction)
    ((none : Option Direction), (none : Option (Nat × Nat)))).1

/-- Python's `max(dirs, key=space)`: the first direction of maximal
flood-fill space (`none` on an empty list, where Python would raise — the
strategies only call it on non-empty lists). -/
def max_by_space (state : GameState) (snake : SnakeState) (ai_config : AIConfig)
    (fuel : Nat) (dirs : List Direction) : Option Direction :=
  match dirs with
  | [] => none
  | d :: rest =>
    some (rest.foldl
      (fun b x =>
        if available_space state snake x ai_config fuel >
            available_space state snake b ai_config fuel then x
        else b) d)

/-- The body of `BalancedStrategy.choose_direction` after the safe-candidate
gate, applied to the chosen candidate list: pursue the nearest food if some
candidate qualifies, otherwise fall back to the flood-fill space maximum. -/
def balanced_with (state : GameState) (snake : SnakeState) (ai_config : AIConfig)
    (fuel : Nat) (options : List Direction) : Direction :=
  let from_food :=
    match nearest_food state snake.head with
    | none => none
    | some target => choose_toward_target state snake options target ai_config fuel
  match from_food with
  | some direction => direction
  | none =>
    match max_by_space state snake ai_config fuel options with
    | some d => d
    | none => snake.direction

/-- `BalancedStrategy.choose_direction` from `ai.py`. -/
def choose_direction_balanced (state : GameState) (snake : SnakeState)
    (ai_config : AIConfig) (fuel : Nat) : Direction :=
  let safe := safe_directions state snake
  if safe.isEmpty then
    let perm := permissive_directions state snake
    if perm.isEmpty then snake.direction
    else balanced_with state snake ai_config fuel perm
  else balanced_with state snake ai_config fuel safe

/-- `AggressiveStrategy.choose_direction` from `ai.py`: target the nearest
rival's head; on failure defer to the full Balanced pipeline. -/
def aggressive_with (state : GameState) (snake : SnakeState) (ai_config : AIConfig)
    (fuel : Nat) (options : List Direction) : Direction :=
  let from_rival :=
    match nearest_rival state snake with
    | none => none
    | some target_snake =>
      choose_toward_target state snake options target_snake.head ai_config fuel
  match from_rival with
  | some direction => direction
  | none => choose_direction_balanced state snake ai_config fuel

def choose_direction_aggressive (state : GameState) (snake : SnakeState)
    (ai_config : AIConfig) (fuel : Nat) : Direction :=
  let safe := safe_directions state snake
  if safe.isEmpty then
    let perm := permissive_directions state snake
    if perm.isEmpty then snake.direction
    else aggressive_with state snake ai_config fuel perm
  else aggressive_with state snake ai_config fuel safe

/-- The candidate score of `DefensiveStrategy`: twice the flood-fill space
plus the distance to the nearest living rival's head. -/
def defensive_score (state : GameState) (snake : SnakeState) (ai_config : AIConfig)
    (fuel : Nat) (direction : Direction) : Nat :=
  available_space state snake direction ai_config fuel * 2 +
    distance_to_nearest_enemy state snake (snake.head.add direction)

/-- The best-scoring candidate of `DefensiveStrategy` (`float("-inf")` start
means the first candidate always wins the empty comparison; `none` only on an
empty candidate list). -/
def defensive_best (state : GameState) (snake : SnakeState) (ai_config : AIConfig)
    (fuel : Nat) (options : List Direction) : Option Direction :=
  match options with
  | [] => none
  | d :: rest =>
    some (rest.foldl
      (fun b x =>
        if defensive_score state snake ai_config fuel x >
            defensive_score state snake ai_config fuel b then x
        else b) d)

/-- `DefensiveStrategy.choose_direction` from `ai.py`: best composite score;
deferring to Balanced only when no candidate scored (empty candidate list). -/
def defensive_with (state : GameState) (snake : SnakeState) (ai_config : AIConfig)
    (fuel : Nat) (options : List Direction) : Direction :=
  match defensive_best state snake ai_config fuel options with
  | some d => d
  | none => choose_direction_balanced state snake ai_config fuel

def choose_direction_defensive (state : GameState) (snake : SnakeState)
    (ai_config : AIConfig) (fuel : Nat) : Direction :=
  let safe := safe_directions state snake
  if safe.isEmpty then
    let perm := permissive_directions state snake
    if perm.isEmpty then snake.direction
    else defensive_with state snake ai_config fuel perm
  else defensive_with state snake ai_config fuel safe

/- ### C8: candidate sets and forced fallback -/

theorem is_cell_safe_true_iff (state : GameState) (snake : SnakeState)
    (pos : Position) :
    is_cell_safe state snake pos true = true ↔
      (state.occupied pos = none ∨
        (state.occupied pos = some snake.id ∧
          snake.body.getLast? = some pos)) := by
  cases hocc : state.occupied pos with
  | none => simp [is_cell_safe, hocc]
  | some occ =>
    by_cases hid : occ = snake.id
    · subst hid
      simp [is_cell_safe, hocc]
    · simp [is_cell_safe, hocc, hid]

theorem is_cell_safe_false_iff (state : GameState) (snake : SnakeState)
    (pos : Position) :
    is_cell_safe state snake pos false = true ↔ state.occupied pos = none := by
  cases hocc : state.occupied pos with
  | none => simp [is_cell_safe, hocc]
  | some occ =>
    by_cases hid : occ = snake.id <;> simp [is_cell_safe, hocc, hid]

theorem mem_safe_directions (state : GameState) (snake : SnakeState)
    (d : Direction) :
    d ∈ safe_directions state snake ↔
      (1 < snake.length → d ≠ snake.direction.opposite) ∧
      state.is_within_bounds (snake.head.add d) = true ∧
      (state.occupied (snake.head.add d) = none ∨
        (state.occupied (snake.head.add d) = some snake.id ∧
          snake.body.getLast? = some (snake.head.add d))) := by
  rw [safe_directions, List.mem_filter]
  simp [direction_mem_all, is_cell_safe_true_iff, Decidable.not_and_iff_or_not,
    imp_iff_not_or]
  tauto

theorem mem_permissive_directions (state : GameState) (snake : SnakeState)
    (d : Direction) :
    d ∈ permissive_directions state snake ↔
      state.is_within_bounds (snake.head.add d) = true ∧
      state.occupied (snake.head.add d) = none := by
  rw [permissive_directions, List.mem_filter]
  simp [direction_mem_all, is_cell_safe_false_iff]

/-- **C8.** The strict safe-candidate set contains exactly the directions
that are not the reverse of the current direction (for snakes longer than
one segment; a length-one snake may reverse), lead to an in-bounds interior
cell, and whose target cell is unoccupied or is the agent's own current tail
segment; the permissive set drops the no-reverse restriction and the
tail-leniency (exactly the in-bounds unoccupied cells); and when both sets
are empty every strategy returns the snake's current direction unchanged. -/
theorem C8_candidate_sets (state : GameState) (snake : SnakeState)
    (ai_config : AIConfig) (fuel : Nat) :
    (∀ d, d ∈ safe_directions state snake ↔
      (1 < snake.length → d ≠ snake.direction.opposite) ∧
      state.is_within_bounds (snake.head.add d) = true ∧
      (state.occupied (snake.head.add d) = none ∨
        (state.occupied (snake.head.add d) = some snake.id ∧
          snake.body.getLast? = some (snake.head.add d)))) ∧
    (∀ d, d ∈ permissive_directions state snake ↔
      state.is_within_bounds (snake.head.add d) = true ∧
      state.occupied (snake.head.add d) = none) ∧
    (safe_directions state snake = [] → permissive_directions state snake = [] →
      choose_direction_balanced state snake ai_config fuel = snake.direction ∧
      choose_direction_aggressive state snake ai_config fuel = snake.direction ∧
      choose_direction_defensive state snake ai_config fuel = snake.direction) := by
  refine ⟨mem_safe_directions state snake, mem_permissive_directions state snake,
    fun hs hp => ⟨?_, ?_, ?_⟩⟩
  · rw [choose_direction_balanced]
    simp [hs, hp]
  · rw [choose_direction_aggressive]
    simp [hs, hp]
  · rw [choose_direction_defensive]
    simp [hs, hp]

/-- The alive snake of `witness_state_food`. -/
def witness_snake : SnakeState :=
  { id := 0, body := [⟨2, 2⟩, ⟨1, 2⟩], direction := .right }

theorem C8_candidate_sets_witness :
    Direction.right ∈ safe_directions witness_state_food witness_snake ∧
    Direction.left ∉ safe_directions witness_state_food witness_snake :=
  ⟨((C8_candidate_sets witness_state_food witness_snake {} 0).1
      Direction.right).mpr ⟨by decide, by decide, Or.inl (by decide)⟩,
   fun h =>
     absurd (((C8_candidate_sets witness_state_food witness_snake {} 0).1
       Direction.left).mp h).1 (by decide)⟩

/- ### C9: targeting selection -/

theorem score_lt_irrefl (a : Nat × Nat) : score_lt a a = false := by
  simp [score_lt]

theorem score_lt_asymm (a b : Nat × Nat) (h : score_lt a b = true) :
    score_lt b a = false := by
  simp [score_lt] at h ⊢
  omega

theorem score_lt_trans_le (a b c : Nat × Nat) (h1 : score_lt a b = true)
    (h2 : score_lt c b = false) : score_lt a c = true := by
  simp [score_lt] at h1 h2 ⊢
  omega

/-- Invariant of the selection fold of `_choose_toward_target` after the
directions in `processed` have been examined: either nothing qualified yet,
or the accumulator holds the first direction of strictly minimal score. -/
def choose_good (score : Direction → Option (Nat × Nat))
    (processed : List Direction)
    (acc : Option Direction × Option (Nat × Nat)) : Prop :=
  (acc = (none, none) ∧ ∀ d ∈ processed, score d = none) ∨
  (∃ db cb pre post, acc = (some db, some cb) ∧ score db = some cb ∧
    processed = pre ++ db :: post ∧
    (∀ d ∈ pre, ∀ c, score d = some c → score_lt cb c = true) ∧
    (∀ d ∈ processed, ∀ c, score d = some c → score_lt c cb = false))

theorem choose_step_good (score : Direction → Option (Nat × Nat))
    (processed : List Direction) (acc : Option Direction × Option (Nat × Nat))
    (d : Direction) (h : choose_good score processed acc) :
    choose_good score (processed ++ [d])
      (match score d with
        | none => acc
        | some candidate => better_candidate acc candidate d) := by
  cases hscore : score d with
  | none =>
    rcases h with ⟨hacc, hall⟩ | ⟨db, cb, pre, post, hacc, hdb, hsplit, hpre, hmin⟩
    · left
      refine ⟨hacc, ?_⟩
      intro x hx
      rcases List.mem_append.mp hx with h1 | h1
      · exact hall x h1
      · rw [List.mem_singleton.mp h1]
        exact hscore
    · right
      refine ⟨db, cb, pre, post ++ [d], hacc, hdb, ?_, hpre, ?_⟩
      · rw [hsplit]
        simp
      · intro x hx c hc
        rcases List.mem_append.mp hx with h1 | h1
        · exact hmin x h1 c hc
        · rw [List.mem_singleton.mp h1] at hc
          rw [hscore] at hc
          exact Option.noConfusion hc
  | some c =>
    rcases h with ⟨hacc, hall⟩ | ⟨db, cb, pre, post, hacc, hdb, hsplit, hpre, hmin⟩
    · rw [hacc]
      right
      refine ⟨d, c, processed, [], rfl, hscore, rfl, ?_, ?_⟩
      · intro x hx cx hcx
        rw [hall x hx] at hcx
        exact Option.noConfusion hcx
      · intro x hx cx hcx
        rcases List.mem_append.mp hx with h1 | h1
        · rw [hall x h1] at hcx
          exact Option.noConfusion hcx
        · rw [List.mem_singleton.mp h1] at hcx
          rw [hscore] at hcx
          rw [Option.some.inj hcx]
          exact score_lt_irrefl _
    · rw [hacc]
      dsimp only
      by_cases hlt : score_lt c cb = true
      · rw [show better_candidate (some db, some cb) c d = (some d, some c) from by
          simp [better_candidate, hlt]]
        right
        have hstrict : ∀ x ∈ processed, ∀ cx, score x = some cx →
            score_lt c cx = true :=
          fun x hx cx hcx => score_lt_trans_le c cb cx hlt (hmin x hx cx hcx)
        refine ⟨d, c, processed, [], rfl, hscore, rfl, hstrict, ?_⟩
        intro x hx cx hcx
        rcases List.mem_append.mp hx with h1 | h1
        · exact score_lt_asymm c cx (hstrict x h1 cx hcx)
        · rw [List.mem_singleton.mp h1] at hcx
          rw [hscore] at hcx
          rw [Option.some.inj hcx]
          exact score_lt_irrefl _
      · rw [show better_candidate (some db, some cb) c d = (some db, some cb) from by
          simp [better_candidate, hlt]]
        right
        refine ⟨db, cb, pre, post ++ [d], rfl, hdb, ?_, hpre, ?_⟩
        · rw [hsplit]
          simp
        · intro x hx cx hcx
          rcases List.mem_append.mp hx with h1 | h1
          · exact hmin x h1 cx hcx
          · rw [List.mem_singleton.mp h1] at hcx
            rw [hscore] at hcx
            rw [← Option.some.inj hcx]
            simpa using hlt

theorem choose_fold_good (score : Direction → Option (Nat × Nat)) :
    ∀ (options processed : List Direction)
      (acc : Option Direction × Option (Nat × Nat)),
      choose_good score processed acc →
      choose_good score (processed ++ options)
        (options.foldl
          (fun acc d =>
            match score d with
            | none => acc
            | some candidate => better_candidate acc candidate d) acc) := by
  intro options
  induction options with
  | nil => intro processed acc h; simpa using h
  | cons d rest ih =>
    intro processed acc h
    rw [List.foldl_cons]
    have h3 := ih (processed ++ [d]) _ (choose_step_good score processed acc d h)
    simpa [List.append_assoc] using h3

/-- Characterization of `_choose_toward_target`: it returns `none` exactly
when no direction qualifies, and otherwise the first direction of strictly
minimal `(kind, value)` score in enumeration order. -/
theorem choose_toward_target_spec (state : GameState) (snake : SnakeState)
    (options : List Direction) (target : Position) (ai_config : AIConfig)
    (fuel : Nat) :
    (choose_toward_target state snake options target ai_config fuel = none ↔
      ∀ d ∈ options, target_score state snake target ai_config fuel d = none) ∧
    (∀ d, choose_toward_target state snake options target ai_config fuel = some d →
      ∃ c pre post, target_score state snake target ai_config fuel d = some c ∧
        options = pre ++ d :: post ∧
        (∀ d' ∈ pre, ∀ c', target_score state snake target ai_config fuel d' = some c' →
          score_lt c c' = true) ∧
        (∀ d' ∈ options, ∀ c', target_score state snake target ai_config fuel d' = some c' →
          score_lt c' c = false)) := by
  have hgood := choose_fold_good (target_score state snake target ai_config fuel)
    options [] (none, none) (Or.inl ⟨rfl, fun d hd => absurd hd (List.not_mem_nil d)⟩)
  rw [List.nil_append] at hgood
  constructor
  · constructor
    · intro hres
      rcases hgood with ⟨_, hall⟩ | ⟨db, cb, pre, post, hacc, _, _, _, _⟩
      · exact hall
      · rw [choose_toward_target, hacc] at hres
        exact Option.noConfusion hres
    · intro hall
      rcases hgood with ⟨hacc, _⟩ | ⟨db, cb, pre, post, hacc, hdb, hsplit, _, _⟩
      · rw [choose_toward_target, hacc]
      · have : db ∈ options := by
          rw [hsplit]
          simp
        rw [hall db this] at hdb
        exact Option.noConfusion hdb
  · intro d hres
    rcases hgood with ⟨hacc, _⟩ | ⟨db, cb, pre, post, hacc, hdb, hsplit, hpre, hmin⟩
    · rw [choose_toward_target, hacc] at hres
      exact Option.noConfusion hres
    · rw [choose_toward_target, hacc] at hres
      have hd : db = d := Option.some.inj hres
      subst hd
      exact ⟨cb, pre, post, hdb, hsplit, hpre, hmin⟩

theorem foldl_choice_mem {α : Type} (g : α → α → α)
    (hg : ∀ b x, g b x = x ∨ g b x = b) :
    ∀ (l : List α) (b : α), l.foldl g b ∈ b :: l := by
  intro l
  induction l with
  | nil => intro b; simp
  | cons x r ih =>
    intro b
    rw [List.foldl_cons]
    rcases hg b x with h | h <;> rw [h]
    · exact List.mem_cons_of_mem b (ih x)
    · rcases List.mem_cons.mp (ih b) with h2 | h2
      · rw [h2]
        exact List.mem_cons_self _ _
      · exact List.mem_cons_of_mem _ (List.mem_cons_of_mem _ h2)

theorem max_by_space_some (state : GameState) (snake : SnakeState)
    (ai_config : AIConfig) (fuel : Nat) (options : List Direction)
    (hne : options ≠ []) :
    ∃ d, max_by_space state snake ai_config fuel options = some d ∧
      d ∈ options := by
  cases options with
  | nil => exact absurd rfl hne
  | cons d0 rest =>
    refine ⟨_, rfl, ?_⟩
    exact foldl_choice_mem _
      (fun b x => by
        by_cases h : available_space state snake x ai_config fuel >
          available_space state snake b ai_config fuel <;> simp [h])
      rest d0

theorem defensive_best_some (state : GameState) (snake : SnakeState)
    (ai_config : AIConfig) (fuel : Nat) (options : List Direction)
    (hne : options ≠ []) :
    ∃ d, defensive_best state snake ai_config fuel options = some d ∧
      d ∈ options := by
  cases options with
  | nil => exact absurd rfl hne
  | cons d0 rest =>
    refine ⟨_, rfl, ?_⟩
    exact foldl_choice_mem _
      (fun b x => by
        by_cases h : defensive_score state snake ai_config fuel x >
          defensive_score state snake ai_config fuel b <;> simp [h])
      rest d0

theorem choose_toward_target_mem (state : GameState) (snake : SnakeState)
    (options : List Direction) (target : Position) (ai_config : AIConfig)
    (fuel : Nat) (d : Direction)
    (h : choose_toward_target state snake options target ai_config fuel = some d) :
    d ∈ options := by
  obtain ⟨c, pre, post, _, hsplit, _, _⟩ :=
    (choose_toward_target_spec state snake options target ai_config fuel).2 d h
  rw [hsplit]
  simp

theorem balanced_with_mem (state : GameState) (snake : SnakeState)
    (ai_config : AIConfig) (fuel : Nat) (options : List Direction)
    (hne : options ≠ []) :
    balanced_with state snake ai_config fuel options ∈ options := by
  rw [balanced_with]
  cases hf : nearest_food state snake.head with
  | none =>
    dsimp only
    obtain ⟨d, hd, hdm⟩ := max_by_space_some state snake ai_config fuel options hne
    rw [hd]
    exact hdm
  | some target =>
    dsimp only
    cases hc : choose_toward_target state snake options target ai_config fuel with
    | some d =>
      dsimp only
      exact choose_toward_target_mem state snake options target ai_config fuel d hc
    | none =>
      dsimp only
      obtain ⟨d, hd, hdm⟩ := max_by_space_some state snake ai_config fuel options hne
      rw [hd]
      exact hdm

theorem choose_direction_balanced_eq_safe (state : GameState) (snake : SnakeState)
    (ai_config : AIConfig) (fuel : Nat)
    (hs : safe_directions state snake ≠ []) :
    choose_direction_balanced state snake ai_config fuel =
      balanced_with state snake ai_config fuel (safe_directions state snake) := by
  rw [choose_direction_balanced]
  rw [if_neg (by simpa [List.isEmpty_iff] using hs)]

theorem choose_direction_balanced_eq_perm (state : GameState) (snake : SnakeState)
    (ai_config : AIConfig) (fuel : Nat)
    (hs : safe_directions state snake = [])
    (hp : permissive_directions state snake ≠ []) :
    choose_direction_balanced state snake ai_config fuel =
      balanced_with state snake ai_config fuel (permissive_directions state snake) := by
  rw [choose_direction_balanced]
  rw [if_pos (by simp [hs]), if_neg (by simpa [List.isEmpty_iff] using hp)]

theorem balanced_cases (state : GameState) (snake : SnakeState)
    (ai_config : AIConfig) (fuel : Nat) :
    (safe_directions state snake ≠ [] →
      choose_direction_balanced state snake ai_config fuel ∈
        safe_directions state snake) ∧
    (safe_directions state snake = [] → permissive_directions state snake ≠ [] →
      choose_direction_balanced state snake ai_config fuel ∈
        permissive_directions state snake) ∧
    (safe_directions state snake = [] → permissive_directions state snake = [] →
      choose_direction_balanced state snake ai_config fuel = snake.direction) := by
  refine ⟨?_, ?_, ?_⟩
  · intro hs
    rw [choose_direction_balanced_eq_safe state snake ai_config fuel hs]
    exact balanced_with_mem state snake ai_config fuel _ hs
  · intro hs hp
    rw [choose_direction_balanced_eq_perm state snake ai_config fuel hs hp]
    exact balanced_with_mem state snake ai_config fuel _ hp
  · intro hs hp
    rw [choose_direction_balanced]
    simp [hs, hp]

/-- **C9.** In Balanced targeting, `_choose_toward_target` returns no
direction exactly when no candidate qualifies (in which case the flood-fill
space fallback of `BalancedStrategy` applies — last conjunct); otherwise it
returns the first candidate direction with lexicographically least
`(kind, value)` score, where a found path of length within the configured
maximum scores `(0, length)` (anything longer is discarded) and a missing
path scores `(1, resulting distance)` only when it strictly reduces the
Manhattan distance to the target.  Least lexicographic score means a
found-path candidate always outranks every no-path candidate (third
conjunct), shortest path / smallest resulting distance wins within a kind,
and ties are broken by candidate enumeration order (the chosen direction is
the first to attain the minimum). -/
theorem C9_choose_toward_target (state : GameState) (snake : SnakeState)
    (options : List Direction) (target : Position) (ai_config : AIConfig)
    (fuel : Nat) :
    (choose_toward_target state snake options target ai_config fuel = none ↔
      ∀ d ∈ options, target_score state snake target ai_config fuel d = none) ∧
    (∀ d, choose_toward_target state snake options target ai_config fuel = some d →
      ∃ c pre post, target_score state snake target ai_config fuel d = some c ∧
        options = pre ++ d :: post ∧
        (∀ d' ∈ pre, ∀ c',
          target_score state snake target ai_config fuel d' = some c' →
          score_lt c c' = true) ∧
        (∀ d' ∈ options, ∀ c',
          target_score state snake target ai_config fuel d' = some c' →
          score_lt c' c = false)) ∧
    (∀ d len,
      choose_toward_target state snake options target ai_config fuel = some d →
      target_score state snake target ai_config fuel d = some (1, len) →
      ∀ d' ∈ options, ∀ len',
        target_score state snake target ai_config fuel d' ≠ some (0, len')) ∧
    (∀ t, nearest_food state snake.head = some t →
      safe_directions state snake ≠ [] →
      choose_toward_target state snake (safe_directions state snake) t
        ai_config fuel = none →
      ∃ d, max_by_space state snake ai_config fuel
          (safe_directions state snake) = some d ∧
        choose_direction_balanced state snake ai_config fuel = d) := by
  obtain ⟨h1, h2⟩ := choose_toward_target_spec state snake options target ai_config fuel
  refine ⟨h1, h2, ?_, ?_⟩
  · intro d len hres hscore d' hd' len' hscore'
    obtain ⟨c, pre, post, hc, _, _, hmin⟩ := h2 d hres
    rw [hscore] at hc
    have hceq : c = (1, len) := (Option.some.inj hc).symm
    have := hmin d' hd' (0, len') hscore'
    rw [hceq] at this
    simp [score_lt] at this
  · intro t hfood hsafe hnone
    obtain ⟨d, hd, _⟩ := max_by_space_some state snake ai_config fuel
      (safe_directions state snake) hsafe
    refine ⟨d, hd, ?_⟩
    rw [choose_direction_balanced_eq_safe state snake ai_config fuel hsafe,
      balanced_with, hfood]
    dsimp only
    rw [hnone]
    dsimp only
    rw [hd]

theorem C9_choose_toward_target_witness :
    choose_toward_target witness_state_food witness_snake
        (safe_directions witness_state_food witness_snake) ⟨3, 2⟩ {} 30 =
      some Direction.right ∧
    ∃ c pre post,
      target_score witness_state_food witness_snake ⟨3, 2⟩ {} 30
          Direction.right = some c ∧
      safe_directions witness_state_food witness_snake =
        pre ++ Direction.right :: post ∧
      (∀ d' ∈ pre, ∀ c',
        target_score witness_state_food witness_snake ⟨3, 2⟩ {} 30 d' = some c' →
        score_lt c c' = true) ∧
      (∀ d' ∈ safe_directions witness_state_food witness_snake, ∀ c',
        target_score witness_state_food witness_snake ⟨3, 2⟩ {} 30 d' = some c' →
        score_lt c' c = false) :=
  ⟨by decide,
   (C9_choose_toward_target witness_state_food witness_snake
      (safe_directions witness_state_food witness_snake) ⟨3, 2⟩ {} 30).2.1
     Direction.right (by decide)⟩

/- ### C10: strategy results stay within the candidate sets -/

theorem aggressive_with_cases (state : GameState) (snake : SnakeState)
    (ai_config : AIConfig) (fuel : Nat) (options : List Direction) :
    aggressive_with state snake ai_config fuel options ∈ options ∨
    aggressive_with state snake ai_config fuel options =
      choose_direction_balanced state snake ai_config fuel := by
  rw [aggressive_with]
  cases hr : nearest_rival state snake with
  | none =>
    dsimp only
    exact Or.inr rfl
  | some rival =>
    dsimp only
    cases hc : choose_toward_target state snake options rival.head ai_config fuel with
    | some d =>
      dsimp only
      exact Or.inl (choose_toward_target_mem state snake options rival.head
        ai_config fuel d hc)
    | none =>
      dsimp only
      exact Or.inr rfl

theorem aggressive_cases (state : GameState) (snake : SnakeState)
    (ai_config : AIConfig) (fuel : Nat) :
    (safe_directions state snake ≠ [] →
      choose_direction_aggressive state snake ai_config fuel ∈
        safe_directions state snake) ∧
    (safe_directions state snake = [] → permissive_directions state snake ≠ [] →
      choose_direction_aggressive state snake ai_config fuel ∈
        permissive_directions state snake) ∧
    (safe_directions state snake = [] → permissive_directions state snake = [] →
      choose_direction_aggressive state snake ai_config fuel = snake.direction) := by
  obtain ⟨b1, b2, _⟩ := balanced_cases state snake ai_config fuel
  refine ⟨?_, ?_, ?_⟩
  · intro hs
    rw [show choose_direction_aggressive state snake ai_config fuel =
        aggressive_with state snake ai_config fuel (safe_directions state snake) from by
      rw [choose_direction_aggressive]
      rw [if_neg (by simpa [List.isEmpty_iff] using hs)]]
    rcases aggressive_with_cases state snake ai_config fuel _ with h | h
    · exact h
    · rw [h]
      exact b1 hs
  · intro hs hp
    rw [show choose_direction_aggressive state snake ai_config fuel =
        aggressive_with state snake ai_config fuel
          (permissive_directions state snake) from by
      rw [choose_direction_aggressive]
      rw [if_pos (by simp [hs]), if_neg (by simpa [List.isEmpty_iff] using hp)]]
    rcases aggressive_with_cases state snake ai_config fuel _ with h | h
    · exact h
    · rw [h]
      exact b2 hs hp
  · intro hs hp
    rw [choose_direction_aggressive]
    simp [hs, hp]

theorem defensive_with_mem (state : GameState) (snake : SnakeState)
    (ai_config : AIConfig) (fuel : Nat) (options : List Direction)
    (hne : options ≠ []) :
    defensive_with state snake ai_config fuel options ∈ options := by
  rw [defensive_with]
  obtain ⟨d, hd, hdm⟩ := defensive_best_some state snake ai_config fuel options hne
  rw [hd]
  exact hdm

theorem defensive_cases (state : GameState) (snake : SnakeState)
    (ai_config : AIConfig) (fuel : Nat) :
    (safe_directions state snake ≠ [] →
      choose_direction_defensive state snake ai_config fuel ∈
        safe_directions state snake) ∧
    (safe_directions state snake = [] → permissive_directions state snake ≠ [] →
      choose_direction_defensive state snake ai_config fuel ∈
        permissive_directions state snake) ∧
    (safe_directions state snake = [] → permissive_directions state snake = [] →
      choose_direction_defensive state snake ai_config fuel = snake.direction) := by
  refine ⟨?_, ?_, ?_⟩
  · intro hs
    rw [show choose_direction_defensive state snake ai_config fuel =
        defensive_with state snake ai_config fuel (safe_directions state snake) from by
      rw [choose_direction_defensive]
      rw [if_neg (by simpa [List.isEmpty_iff] using hs)]]
    exact defensive_with_mem state snake ai_config fuel _ hs
  · intro hs hp
    rw [show choose_direction_defensive state snake ai_config fuel =
        defensive_with state snake ai_config fuel
          (permissive_directions state snake) from by
      rw [choose_direction_defensive]
      rw [if_pos (by simp [hs]), if_neg (by simpa [List.isEmpty_iff] using hp)]]
    exact defensive_with_mem state snake ai_config fuel _ hp
  · intro hs hp
    rw [choose_direction_defensive]
    simp [hs, hp]

/-- Counterexample for C10 as stated: the Balanced strategy returns the
unchanged current direction even though the strict safe-candidate set is
non-empty (moving straight ahead is simply the best move). -/
theorem C10_current_direction_counterexample :
    choose_direction_balanced witness_state_food witness_snake {} 30 =
      witness_snake.direction ∧
    safe_directions witness_state_food witness_snake ≠ [] := by
  exact ⟨by decide, by decide⟩

/-- **C10** (amended).  For every state and snake, each of the three
strategies returns a member of the strict safe-candidate set whenever that
set is non-empty, and a member of the permissive candidate set whenever the
strict set is empty and the permissive set is non-empty; when both candidate
sets are empty each strategy returns the unchanged current direction.  (The
literal claim additionally asserted the current direction is returned *only*
when both sets are empty; the counterexample shows a strategy may return the
current direction as a legitimate member of a non-empty safe set.) -/
theorem C10_strategy_safety (state : GameState) (snake : SnakeState)
    (ai_config : AIConfig) (fuel : Nat) :
    ∀ f ∈ [choose_direction_balanced, choose_direction_aggressive,
        choose_direction_defensive],
      (safe_directions state snake ≠ [] →
        f state snake ai_config fuel ∈ safe_directions state snake) ∧
      (safe_directions state snake = [] → permissive_directions state snake ≠ [] →
        f state snake ai_config fuel ∈ permissive_directions state snake) ∧
      (safe_directions state snake = [] → permissive_directions state snake = [] →
        f state snake ai_config fuel = snake.direction) := by
  intro f hf
  rcases List.mem_cons.mp hf with h | hf
  · subst h
    exact balanced_cases state snake ai_config fuel
  rcases List.mem_cons.mp hf with h | hf
  · subst h
    exact aggressive_cases state snake ai_config fuel
  rcases List.mem_cons.mp hf with h | hf
  · subst h
    exact defensive_cases state snake ai_config fuel
  · exact absurd hf (List.not_mem_nil f)

theorem C10_strategy_safety_witness :
    choose_direction_balanced witness_state_food witness_snake {} 30 ∈
      safe_directions witness_state_food witness_snake :=
  (C10_strategy_safety witness_state_food witness_snake {} 30
    choose_direction_balanced (by simp)).1 (by decide)

/- ### C7: optimality of returned paths -/

theorem path_end_append_general (q : List Position) :
    ∀ (p : List Position) (a : Position),
      path_end a (p ++ q) = path_end (path_end a p) q := by
  intro p
  induction p with
  | nil => intro a; rfl
  | cons c rest ih => intro a; exact ih c

theorem valid_step_path_split (state : GameState) (snake_id : Nat)
    (goal : Position) :
    ∀ (p q : List Position) (a : Position),
      valid_step_path state snake_id goal a (p ++ q) →
      valid_step_path state snake_id goal a p ∧
        valid_step_path state snake_id goal (path_end a p) q := by
  intro p
  induction p with
  | nil => intro q a h; exact ⟨trivial, h⟩
  | cons c rest ih =>
    intro q a h
    obtain ⟨h1, h2, h3⟩ := h
    obtain ⟨h4, h5⟩ := ih q c h3
    exact ⟨⟨h1, h2, h4⟩, h5⟩

theorem distance_triangle (a b c : Position) :
    a.distance_to c ≤ a.distance_to b + b.distance_to c := by
  simp only [Position.distance_to]
  omega

theorem distance_add_one (a : Position) (d : Direction) :
    a.distance_to (a.add d) = 1 := by
  cases d <;>
    (simp only [Position.distance_to, Position.add, Direction.delta]; omega)

theorem distance_self (a : Position) : a.distance_to a = 0 := by
  simp [Position.distance_to]

theorem admissible_along_path (state : GameState) (snake_id : Nat)
    (goal : Position) :
    ∀ (p : List Position) (a : Position),
      valid_step_path state snake_id goal a p →
      a.distance_to (path_end a p) ≤ p.length := by
  intro p
  induction p with
  | nil =>
    intro a _
    rw [show path_end a [] = a from rfl, distance_self]
    exact Nat.le_refl 0
  | cons c rest ih =>
    intro a h
    obtain ⟨h1, ⟨d, hd⟩, h3⟩ := h
    calc a.distance_to (path_end a (c :: rest))
        = a.distance_to (path_end c rest) := rfl
      _ ≤ a.distance_to c + c.distance_to (path_end c rest) :=
          distance_triangle a c _
      _ ≤ 1 + rest.length := by
          have h4 : a.distance_to c = 1 := by rw [← hd]; exact distance_add_one a d
          have h5 := ih c h3
          omega
      _ = (c :: rest).length := by simp [Nat.add_comm]

theorem heap_lt_total_lemma1 (x m e : Nat × Nat × Nat × Position)
    (h1 : heap_lt x m = false) (h2 : heap_lt x e = true) :
    heap_lt e m = false := by
  simp [heap_lt] at h1 h2 ⊢
  omega

theorem heap_lt_total_lemma2 (x e m : Nat × Nat × Nat × Position)
    (h1 : heap_lt x e = false) (h2 : heap_lt e m = false) :
    heap_lt x m = false := by
  simp [heap_lt] at h1 h2 ⊢
  omega

theorem heap_lt_irrefl (a : Nat × Nat × Nat × Position) : heap_lt a a = false := by
  simp [heap_lt]

theorem foldl_min_le (r : List (Nat × Nat × Nat × Position)) :
    ∀ (b : Nat × Nat × Nat × Position) (x : Nat × Nat × Nat × Position),
      x ∈ b :: r →
      heap_lt x (r.foldl (fun b x => if heap_lt x b then x else b) b) = false := by
  induction r with
  | nil =>
    intro b x hx
    rw [List.mem_singleton.mp hx]
    exact heap_lt_irrefl _
  | cons x0 r ih =>
    intro b x hx
    rw [List.foldl_cons]
    by_cases h0 : heap_lt x0 b
    · rw [if_pos h0]
      rcases List.mem_cons.mp hx with h | h
      · rw [h]
        exact heap_lt_total_lemma1 x0 _ b
          (ih x0 x0 (List.mem_cons_self _ _)) h0
      · exact ih x0 x h
    · rw [if_neg h0]
      rcases List.mem_cons.mp hx with h | h
      · rw [h]
        exact ih b b (List.mem_cons_self _ _)
      · rcases List.mem_cons.mp h with h2 | h2
        · rw [h2]
          exact heap_lt_total_lemma2 x0 b _ (by simpa using h0)
            (ih b b (List.mem_cons_self _ _))
        · exact ih b x (List.mem_cons_of_mem _ h2)

theorem heap_pop_min (heap : List (Nat × Nat × Nat × Position))
    (e : Nat × Nat × Nat × Position) (rest : List (Nat × Nat × Nat × Position))
    (h : heap_pop heap = some (e, rest)) :
    ∀ x ∈ heap, heap_lt x e = false := by
  match heap with
  | [] => simp [heap_pop] at h
  | e0 :: r =>
    rw [heap_pop] at h
    have he1 : e = r.foldl (fun b x => if heap_lt x b then x else b) e0 :=
      (congrArg Prod.fst (Option.some.inj h)).symm
    intro x hx
    rw [he1]
    exact foldl_min_le r e0 x hx

/-- Additional optimality invariant of the A* loop: every heap entry's
priority is its recorded distance plus the heuristic; every scored,
unvisited node still holds a heap entry carrying its current score; and
every neighbour of a visited node is scored at most one above the length
of any walkable chain reaching that visited node. -/
structure AStarOpt (state : GameState) (snake_id : Nat) (start goal : Position)
    (st : AStarState) : Prop where
  pri_ok : ∀ e ∈ st.heap, e.1 = e.2.2.1 + heuristic e.2.2.2 goal
  fresh : ∀ n gn, st.g_score n = some gn → n ∉ st.visited →
    ∃ e ∈ st.heap, e.2.2.2 = n ∧ e.2.2.1 = gn
  succ_bound : ∀ v ∈ st.visited, ∀ c ∈ neighbors state snake_id v goal,
    ∀ P, valid_step_path state snake_id goal start P → path_end start P = v →
      ∃ gc, st.g_score c = some gc ∧ gc ≤ P.length + 1

theorem frontier_cover (state : GameState) (snake_id : Nat)
    (start goal : Position) (st : AStarState)
    (hInv : AStarInv state snake_id start goal st)
    (hOpt : AStarOpt state snake_id start goal st) :
    ∀ (P : List Position) (u : Position),
      valid_step_path state snake_id goal start P → path_end start P = u →
      u ∉ st.visited →
      ∃ e ∈ st.heap, e.2.2.2 ∉ st.visited ∧
        ∃ P1 P2, P = P1 ++ P2 ∧ path_end start P1 = e.2.2.2 ∧
          e.2.2.1 ≤ P1.length := by
  intro P
  induction P using List.reverseRecOn with
  | nil =>
    intro u hval hend hu
    have hus : u = start := hend.symm
    subst hus
    obtain ⟨e, he, hpos, hdd⟩ := hOpt.fresh u 0 hInv.g_start hu
    exact ⟨e, he, by rw [hpos]; exact hu, [], [], rfl, hpos.symm, by omega⟩
  | append_singleton p u' ih =>
    intro u hval hend hu
    have hu' : u = u' := by rw [← hend, path_end_append]
    subst hu'
    have hsplit2 := valid_step_path_split state snake_id goal p [u] start hval
    have hvalp := hsplit2.1
    obtain ⟨hw, ⟨d, hd⟩, -⟩ := hsplit2.2
    by_cases hv : path_end start p ∈ st.visited
    · have hnb : u ∈ neighbors state snake_id (path_end start p) goal :=
        (mem_neighbors state snake_id (path_end start p) goal u).mpr ⟨⟨d, hd⟩, hw⟩
      obtain ⟨gc, hgc, hle⟩ :=
        hOpt.succ_bound (path_end start p) hv u hnb p hvalp rfl
      obtain ⟨e, he, hpos, hdd⟩ := hOpt.fresh u gc hgc hu
      refine ⟨e, he, by rw [hpos]; exact hu, p ++ [u], [], by simp, ?_, ?_⟩
      · rw [hpos]
        exact path_end_append u p start
      · rw [hdd, List.length_append]
        simpa using hle
    · obtain ⟨e, he, hnv, P1, P2, hsplit, hend1, hdd⟩ :=
        ih (path_end start p) hvalp rfl hv
      exact ⟨e, he, hnv, P1, P2 ++ [u],
        by rw [hsplit, List.append_assoc], hend1, hdd⟩

theorem popped_le_path (state : GameState) (snake_id : Nat)
    (start goal : Position) (st : AStarState)
    (hInv : AStarInv state snake_id start goal st)
    (hOpt : AStarOpt state snake_id start goal st)
    (e : Nat × Nat × Nat × Position)
    (rest : List (Nat × Nat × Nat × Position))
    (hpop : heap_pop st.heap = some (e, rest))
    (hnv : e.2.2.2 ∉ st.visited) :
    ∀ P, valid_step_path state snake_id goal start P →
      path_end start P = e.2.2.2 → e.2.2.1 ≤ P.length := by
  intro P hval hend
  obtain ⟨e1, he1, _, P1, P2, hsplit, hend1, hdd⟩ :=
    frontier_cover state snake_id start goal st hInv hOpt P e.2.2.2 hval hend hnv
  have hmin : heap_lt e1 e = false := heap_pop_min st.heap e rest hpop e1 he1
  have hple : e.1 ≤ e1.1 := by
    simp [heap_lt] at hmin
    omega
  have hprie : e.1 = e.2.2.1 + heuristic e.2.2.2 goal :=
    hOpt.pri_ok e (heap_pop_mem st.heap e rest hpop).1
  have hprie1 : e1.1 = e1.2.2.1 + heuristic e1.2.2.2 goal :=
    hOpt.pri_ok e1 he1
  have hval2 : valid_step_path state snake_id goal e1.2.2.2 P2 := by
    have h2 := (valid_step_path_split state snake_id goal P1 P2 start
      (by rw [← hsplit]; exact hval)).2
    rw [hend1] at h2
    exact h2
  have hadm : e1.2.2.2.distance_to (path_end e1.2.2.2 P2) ≤ P2.length :=
    admissible_along_path state snake_id goal P2 e1.2.2.2 hval2
  have hendP2 : path_end e1.2.2.2 P2 = e.2.2.2 := by
    rw [← hend1, ← path_end_append_general, ← hsplit, hend]
  rw [hendP2] at hadm
  have htri : e1.2.2.2.distance_to goal ≤
      e1.2.2.2.distance_to e.2.2.2 + e.2.2.2.distance_to goal :=
    distance_triangle _ _ _
  have hlenP : P.length = P1.length + P2.length := by
    rw [hsplit, List.length_append]
  simp only [heuristic] at hprie hprie1
  omega

theorem astar_update_opt (goal current : Position) (distance : Nat)
    (st : AStarState) (nb : Position)
    (hbet : st.g_score nb = none ∨
      ∃ g, st.g_score nb = some g ∧ distance + 1 < g) :
    astar_push goal current distance st nb =
      { st with
        came_from := Function.update st.came_from nb (some current),
        g_score := Function.update st.g_score nb (some (distance + 1)),
        counter := st.counter + 1,
        heap := st.heap ++
          [(distance + 1 + heuristic nb goal, st.counter + 1, distance + 1, nb)] }
      := astar_push_eq_update goal current distance st nb hbet

theorem astar_push_opt (goal current : Position) (distance : Nat)
    (st : AStarState) (nb : Position) :
    (∀ x ∈ st.heap, x ∈ (astar_push goal current distance st nb).heap) ∧
    (∀ n gn, st.g_score n = some gn →
      ∃ gn2, (astar_push goal current distance st nb).g_score n = some gn2 ∧
        gn2 ≤ gn) ∧
    ((∀ x ∈ st.heap, x.1 = x.2.2.1 + heuristic x.2.2.2 goal) →
      ∀ x ∈ (astar_push goal current distance st nb).heap,
        x.1 = x.2.2.1 + heuristic x.2.2.2 goal) ∧
    ((∀ n gn, st.g_score n = some gn → n ∉ st.visited →
        ∃ x ∈ st.heap, x.2.2.2 = n ∧ x.2.2.1 = gn) →
      ∀ n gn, (astar_push goal current distance st nb).g_score n = some gn →
        n ∉ st.visited →
        ∃ x ∈ (astar_push goal current distance st nb).heap,
          x.2.2.2 = n ∧ x.2.2.1 = gn) ∧
    (∃ gnb, (astar_push goal current distance st nb).g_score nb = some gnb ∧
      gnb ≤ distance + 1) ∧
    (astar_push goal current distance st nb).visited = st.visited := by
  have hupdate : ∀ hbet : st.g_score nb = none ∨
      ∃ g, st.g_score nb = some g ∧ distance + 1 < g,
      (∀ x ∈ st.heap, x ∈ (astar_push goal current distance st nb).heap) ∧
      (∀ n gn, st.g_score n = some gn →
        ∃ gn2, (astar_push goal current distance st nb).g_score n = some gn2 ∧
          gn2 ≤ gn) ∧
      ((∀ x ∈ st.heap, x.1 = x.2.2.1 + heuristic x.2.2.2 goal) →
        ∀ x ∈ (astar_push goal current distance st nb).heap,
          x.1 = x.2.2.1 + heuristic x.2.2.2 goal) ∧
      ((∀ n gn, st.g_score n = some gn → n ∉ st.visited →
          ∃ x ∈ st.heap, x.2.2.2 = n ∧ x.2.2.1 = gn) →
        ∀ n gn, (astar_push goal current distance st nb).g_score n = some gn →
          n ∉ st.visited →
          ∃ x ∈ (astar_push goal current distance st nb).heap,
            x.2.2.2 = n ∧ x.2.2.1 = gn) ∧
      (∃ gnb, (astar_push goal current distance st nb).g_score nb = some gnb ∧
        gnb ≤ distance + 1) ∧
      (astar_push goal current distance st nb).visited = st.visited := by
    intro hbet
    rw [astar_update_opt goal current distance st nb hbet]
    refine ⟨?_, ?_, ?_, ?_, ?_, rfl⟩
    · intro x hx
      dsimp only
      exact List.mem_append_left _ hx
    · intro n gn hgn
      dsimp only
      by_cases hn : n = nb
      · subst hn
        rcases hbet with h1 | ⟨g, h1, h2⟩
        · rw [h1] at hgn
          exact Option.noConfusion hgn
        · rw [h1] at hgn
          have := Option.some.inj hgn
          exact ⟨distance + 1, Function.update_same _ _ _, by omega⟩
      · rw [Function.update_noteq hn]
        exact ⟨gn, hgn, le_refl gn⟩
    · intro hpri x hx
      dsimp only at hx
      rcases List.mem_append.mp hx with h1 | h1
      · exact hpri x h1
      · rw [List.mem_singleton.mp h1]
    · intro hfresh n gn hgn hnv
      dsimp only at hgn ⊢
      by_cases hn : n = nb
      · subst hn
        rw [Function.update_same] at hgn
        have hgneq := Option.some.inj hgn
        refine ⟨(distance + 1 + heuristic n goal, st.counter + 1,
          distance + 1, n), ?_, rfl, hgneq⟩
        exact List.mem_append_right _ (List.mem_singleton.mpr rfl)
      · rw [Function.update_noteq hn] at hgn
        obtain ⟨x, hx, hpos, hdd⟩ := hfresh n gn hgn hnv
        exact ⟨x, List.mem_append_left _ hx, hpos, hdd⟩
    · dsimp only
      exact ⟨distance + 1, Function.update_same _ _ _, le_refl _⟩
  cases hgnb : st.g_score nb with
  | none => exact hupdate (Or.inl hgnb)
  | some g =>
    by_cases hlt : distance + 1 < g
    · exact hupdate (Or.inr ⟨g, hgnb, hlt⟩)
    · rw [astar_push_eq_skip goal current distance st nb g hgnb hlt]
      refine ⟨fun x hx => hx, fun n gn hgn => ⟨gn, hgn, le_refl gn⟩,
        fun h => h, fun h => h, ⟨g, hgnb, by omega⟩, rfl⟩

theorem astar_fold_opt (goal current : Position) (distance : Nat) :
    ∀ (nbs : List Position) (st : AStarState),
      (∀ x ∈ st.heap,
        x ∈ (nbs.foldl (astar_push goal current distance) st).heap) ∧
      (∀ n gn, st.g_score n = some gn →
        ∃ gn2,
          (nbs.foldl (astar_push goal current distance) st).g_score n =
            some gn2 ∧ gn2 ≤ gn) ∧
      ((∀ x ∈ st.heap, x.1 = x.2.2.1 + heuristic x.2.2.2 goal) →
        ∀ x ∈ (nbs.foldl (astar_push goal current distance) st).heap,
          x.1 = x.2.2.1 + heuristic x.2.2.2 goal) ∧
      ((∀ n gn, st.g_score n = some gn → n ∉ st.visited →
          ∃ x ∈ st.heap, x.2.2.2 = n ∧ x.2.2.1 = gn) →
        ∀ n gn,
          (nbs.foldl (astar_push goal current distance) st).g_score n =
            some gn →
          n ∉ st.visited →
          ∃ x ∈ (nbs.foldl (astar_push goal current distance) st).heap,
            x.2.2.2 = n ∧ x.2.2.1 = gn) ∧
      (∀ c ∈ nbs,
        ∃ gc,
          (nbs.foldl (astar_push goal current distance) st).g_score c =
            some gc ∧ gc ≤ distance + 1) ∧
      (nbs.foldl (astar_push goal current distance) st).visited =
        st.visited := by
  intro nbs
  induction nbs with
  | nil =>
    intro st
    exact ⟨fun x hx => hx, fun n gn hgn => ⟨gn, hgn, le_refl gn⟩,
      fun h => h, fun h => h, fun c hc => absurd hc (List.not_mem_nil c), rfl⟩
  | cons nb rest ih =>
    intro st
    rw [List.foldl_cons]
    obtain ⟨p1, p2, p3, p4, p5, p6⟩ :=
      astar_push_opt goal current distance st nb
    obtain ⟨q1, q2, q3, q4, q5, q6⟩ :=
      ih (astar_push goal current distance st nb)
    refine ⟨fun x hx => q1 x (p1 x hx), ?_, fun h => q3 (p3 h), ?_, ?_, ?_⟩
    · intro n gn hgn
      obtain ⟨gn2, hgn2, hle2⟩ := p2 n gn hgn
      obtain ⟨gn3, hgn3, hle3⟩ := q2 n gn2 hgn2
      exact ⟨gn3, hgn3, le_trans hle3 hle2⟩
    · intro hfresh n gn hgn hnv
      have hnv2 : n ∉ (astar_push goal current distance st nb).visited := by
        rw [p6]
        exact hnv
      exact q4 (fun m gm hgm hmv => p4 hfresh m gm hgm (by rw [← p6]; exact hmv))
        n gn hgn hnv2
    · intro c hc
      rcases List.mem_cons.mp hc with h1 | h1
      · obtain ⟨gnb, hgnb, hlenb⟩ := p5
        rw [h1]
        obtain ⟨gn3, hgn3, hle3⟩ := q2 nb gnb hgnb
        exact ⟨gn3, hgn3, by omega⟩
      · exact q5 c h1
    · rw [q6, p6]

theorem find_path_loop_opt (state : GameState) (snake_id : Nat)
    (start goal : Position) :
    ∀ (fuel : Nat) (st : AStarState),
      AStarInv state snake_id start goal st →
      AStarOpt state snake_id start goal st →
      ∀ path, find_path_loop state snake_id goal fuel st = some path →
        ∀ Q, valid_step_path state snake_id goal start Q →
          path_end start Q = goal → path.length ≤ Q.length := by
  intro fuel
  induction fuel with
  | zero =>
    intro st _ _ path h
    simp [find_path_loop] at h
  | succ fuel ih =>
    intro st hInv hOpt path h
    rw [find_path_loop] at h
    cases hpop : heap_pop st.heap with
    | none =>
      rw [hpop] at h
      exact Option.noConfusion h
    | some pr =>
      obtain ⟨e, rest⟩ := pr
      rw [hpop] at h
      dsimp only at h
      obtain ⟨hemem, hrest⟩ := heap_pop_mem st.heap e rest hpop
      by_cases hv : e.2.2.2 ∈ st.visited
      · rw [if_pos hv] at h
        refine ih { st with heap := rest }
          { g_start := hInv.g_start, cf_start := hInv.cf_start,
            cf_ok := hInv.cf_ok, cf_closed := hInv.cf_closed,
            heap_ok := fun x hx => hInv.heap_ok x (hrest x hx) }
          { pri_ok := fun x hx => hOpt.pri_ok x (hrest x hx),
            fresh := ?_, succ_bound := hOpt.succ_bound }
          path h
        intro n gn hgn hnv
        obtain ⟨x, hx, hpos, hdd⟩ := hOpt.fresh n gn hgn hnv
        have hxe : x ≠ e := by
          intro hxe
          rw [hxe] at hpos
          rw [hpos] at hv
          exact hnv hv
        refine ⟨x, ?_, hpos, hdd⟩
        dsimp only
        have hrest2 : rest = st.heap.erase e := by
          cases hheap : st.heap with
          | nil => rw [hheap] at hpop; simp [heap_pop] at hpop
          | cons e0 r =>
            rw [hheap] at hpop
            rw [heap_pop] at hpop
            have he := Option.some.inj hpop
            have h1 : e = r.foldl (fun b x => if heap_lt x b then x else b) e0 :=
              (congrArg Prod.fst he).symm
            have h2 : rest = (e0 :: r).erase
                (r.foldl (fun b x => if heap_lt x b then x else b) e0) :=
              (congrArg Prod.snd he).symm
            rw [h2, ← h1]
        rw [hrest2]
        exact (List.mem_erase_of_ne hxe).mpr hx
      · rw [if_neg hv] at h
        by_cases hgoal : e.2.2.2 = goal
        · rw [if_pos hgoal] at h
          have hpath := Option.some.inj h
          obtain ⟨hcs, g, hgs, hgle⟩ := hInv.heap_ok e hemem
          obtain ⟨_, _, hlen⟩ := reconstruct_path_spec state snake_id start goal
            st.came_from st.g_score hInv.cf_ok hInv.cf_closed
            e.2.2.1 e.2.2.2 g hgs hgle hcs
          intro Q hQ hQend
          have hdle : e.2.2.1 ≤ Q.length :=
            popped_le_path state snake_id start goal st hInv hOpt e rest hpop
              hv Q hQ (by rw [hQend, hgoal])
          rw [← hpath]
          omega
        · rw [if_neg hgoal] at h
          obtain ⟨hcs, g, hgs, hgle⟩ := hInv.heap_ok e hemem
          have hrest2 : rest = st.heap.erase e := by
            cases hheap : st.heap with
            | nil => rw [hheap] at hpop; simp [heap_pop] at hpop
            | cons e0 r =>
              rw [hheap] at hpop
              rw [heap_pop] at hpop
              have he := Option.some.inj hpop
              have h1 : e = r.foldl (fun b x => if heap_lt x b then x else b) e0 :=
                (congrArg Prod.fst he).symm
              have h2 : rest = (e0 :: r).erase
                  (r.foldl (fun b x => if heap_lt x b then x else b) e0) :=
                (congrArg Prod.snd he).symm
              rw [h2, ← h1]
          obtain ⟨f1, f2, f3, f4, f5, f6⟩ :=
            astar_fold_opt goal e.2.2.2 e.2.2.1
              (neighbors state snake_id e.2.2.2 goal)
              { st with heap := rest, visited := e.2.2.2 :: st.visited }
          refine ih _ ?_ ?_ path h
          · exact astar_fold_inv state snake_id start goal e.2.2.2 e.2.2.1
              (neighbors state snake_id e.2.2.2 goal)
              { st with heap := rest, visited := e.2.2.2 :: st.visited }
              (fun x hx => hx)
              { g_start := hInv.g_start, cf_start := hInv.cf_start,
                cf_ok := hInv.cf_ok, cf_closed := hInv.cf_closed,
                heap_ok := fun x hx => hInv.heap_ok x (hrest x hx) }
              hcs ⟨g, hgs, hgle⟩
          · refine { pri_ok := ?_, fresh := ?_, succ_bound := ?_ }
            · refine f3 ?_
              intro x hx
              exact hOpt.pri_ok x (hrest x hx)
            · intro n gn hgn hnv2
              rw [f6] at hnv2
              refine f4 ?_ n gn hgn hnv2
              intro m gm hgm hmv
              dsimp only at hgm hmv ⊢
              have hnv3 : m ∉ st.visited := fun hmem =>
                hmv (List.mem_cons_of_mem _ hmem)
              have hne : m ≠ e.2.2.2 := fun heq =>
                hmv (heq ▸ List.mem_cons_self _ _)
              obtain ⟨x, hx, hpos, hdd⟩ := hOpt.fresh m gm hgm hnv3
              have hxe : x ≠ e := fun hxe => hne (by rw [← hpos, hxe])
              rw [hrest2]
              exact ⟨x, (List.mem_erase_of_ne hxe).mpr hx, hpos, hdd⟩
            · intro v hvmem c hc P hP hPend
              rw [f6] at hvmem
              dsimp only at hvmem
              rcases List.mem_cons.mp hvmem with hveq | hvold
              · subst hveq
                obtain ⟨gc, hgc, hgcle⟩ := f5 c hc
                have hdP : e.2.2.1 ≤ P.length :=
                  popped_le_path state snake_id start goal st hInv hOpt e rest
                    hpop hv P hP hPend
                exact ⟨gc, hgc, by omega⟩
              · obtain ⟨gc, hgc, hgcle⟩ :=
                  hOpt.succ_bound v hvold c hc P hP hPend
                obtain ⟨gc2, hgc2, hle2⟩ := f2 c gc hgc
                exact ⟨gc2, hgc2, by omega⟩

/-- **C7.** Whenever `find_path` returns a path, that path has minimum
length among all walkable in-bounds paths from start to goal in the
snapshot: the Manhattan heuristic is admissible and consistent (both facts
proved above as `admissible_along_path` and `distance_triangle`), so the
first expansion of the goal yields an optimal path. -/
theorem C7_find_path_optimal (state : GameState) (snake_id : Nat)
    (start goal : Position) (fuel : Nat) (path : List Position)
    (hres : find_path state snake_id start goal fuel = some path) :
    ∀ q, valid_path state snake_id goal start q → path.length ≤ q.length := by
  by_cases hsg : start = goal
  · rw [find_path, if_pos hsg] at hres
    have hpath := Option.some.inj hres
    rw [← hpath]
    intro q _
    simp
  · rw [find_path, if_neg hsg] at hres
    intro q hq
    obtain ⟨hq1, hq2⟩ := hq
    refine find_path_loop_opt state snake_id start goal fuel
      { heap := [(heuristic start goal, 0, 0, start)],
        came_from := fun _ => none,
        g_score := Function.update (fun _ => none) start (some 0),
        visited := [],
        counter := 0 } ?_ ?_ path hres q hq1 hq2
    · exact
        { g_start := by
            dsimp only
            exact Function.update_same start (some 0) (fun _ => none),
          cf_start := rfl,
          cf_ok := fun n c hc => Option.noConfusion hc,
          cf_closed := fun n c hc => Option.noConfusion hc,
          heap_ok := by
            intro e he
            dsimp only at he ⊢
            rw [List.mem_singleton.mp he]
            exact ⟨Or.inl rfl, 0,
              Function.update_same start (some 0) (fun _ => none), le_refl 0⟩ }
    · refine { pri_ok := ?_, fresh := ?_, succ_bound := ?_ }
      · intro e he
        dsimp only at he
        rw [List.mem_singleton.mp he]
        simp
      · intro n gn hgn hnv
        dsimp only at hgn ⊢
        by_cases hn : n = start
        · subst hn
          rw [Function.update_same] at hgn
          have hgneq := Option.some.inj hgn
          exact ⟨(heuristic n goal, 0, 0, n), List.mem_singleton.mpr rfl,
            rfl, hgneq⟩
        · rw [Function.update_noteq hn] at hgn
          exact Option.noConfusion hgn
      · intro v hvmem
        exact absurd hvmem (List.not_mem_nil v)

theorem C7_find_path_optimal_witness :
    find_path witness_state_food 0 ⟨2, 2⟩ ⟨4, 2⟩ 10 = some [⟨3, 2⟩, ⟨4, 2⟩] ∧
    valid_path witness_state_food 0 ⟨4, 2⟩ ⟨2, 2⟩
      [⟨2, 3⟩, ⟨3, 3⟩, ⟨4, 3⟩, ⟨4, 2⟩] ∧
    ([⟨3, 2⟩, ⟨4, 2⟩] : List Position).length ≤
      ([⟨2, 3⟩, ⟨3, 3⟩, ⟨4, 3⟩, ⟨4, 2⟩] : List Position).length := by
  refine ⟨by decide, ⟨⟨rfl, ⟨Direction.down, by decide⟩, rfl,
    ⟨Direction.right, by decide⟩, rfl, ⟨Direction.right, by decide⟩,
    rfl, ⟨Direction.up, by decide⟩, trivial⟩, rfl⟩, ?_⟩
  exact C7_find_path_optimal witness_state_food 0 ⟨2, 2⟩ ⟨4, 2⟩ 10
    [⟨3, 2⟩, ⟨4, 2⟩] (by decide) [⟨2, 3⟩, ⟨3, 3⟩, ⟨4, 3⟩, ⟨4, 2⟩]
    ⟨⟨rfl, ⟨Direction.down, by decide⟩, rfl,
      ⟨Direction.right, by decide⟩, rfl, ⟨Direction.right, by decide⟩,
      rfl, ⟨Direction.up, by decide⟩, trivial⟩, rfl⟩
